import Mathlib

set_option maxRecDepth 10000

/-!
Shallow embedding of the scrabby move engine (src/src/letter.rs,
src/src/board.rs, src/src/computer.rs) and proofs about it.

Modeling conventions:
* Rust strings are modeled as `List Char`; the source only ever holds
  ASCII and iterates interchangeably over `chars()` and `as_bytes()`.
* `usize`/`u32` are modeled as `Nat` (amounts as `Int` where Rust uses
  `isize`).  Overflow at `2^64`/`2^32` is not modeled; every quantity in
  the claims below is far under those bounds.
* A Rust panic — a failed `unwrap()` (e.g. `checked_add_signed(..).unwrap()`
  on underflow), a failed `assert!`, an out-of-bounds `Vec` index
  assignment, a bare `usize` subtraction underflow, or a division or
  remainder by zero — is modeled as `Option.none`; fallible operations
  therefore return `Option`.  A loop the source would never exit
  (possible only on a size-0 board, where `Direction::Down` has offset 0)
  is likewise mapped to `none` by a fuel argument large enough for every
  terminating run.
* `find_boundary_word` is modeled as returning the scanned word as a
  `Word` (start bound, scan direction, text): board.rs's scorer reads
  `.position`/`.direction`/`.get_score` from its result while
  computer.rs's validator reads the text, and we serve both call sites.
-/

namespace Scrabby

/-- Tile alphabet, mirroring letter.rs (26 letters plus the blank). -/
inductive Letter where
  | A | B | C | D | E | F | G | H | I | J | K | L | M | N
  | O | P | Q | R | S | T | U | V | W | X | Y | Z | Blank
deriving DecidableEq

/-- Mirrors letter.rs Letter::from_char: space maps to Blank, an ASCII
uppercase letter to itself, and anything else trips the assert (a panic,
modeled as none). -/
def Letter.from_char (c : Char) : Option Letter :=
  match c with
  | ' ' => some .Blank
  | 'A' => some .A | 'B' => some .B | 'C' => some .C | 'D' => some .D
  | 'E' => some .E | 'F' => some .F | 'G' => some .G | 'H' => some .H
  | 'I' => some .I | 'J' => some .J | 'K' => some .K | 'L' => some .L
  | 'M' => some .M | 'N' => some .N | 'O' => some .O | 'P' => some .P
  | 'Q' => some .Q | 'R' => some .R | 'S' => some .S | 'T' => some .T
  | 'U' => some .U | 'V' => some .V | 'W' => some .W | 'X' => some .X
  | 'Y' => some .Y | 'Z' => some .Z
  | _ => none

/-- Mirrors letter.rs Letter::to_char. -/
def Letter.to_char : Letter → Char
  | .A => 'A' | .B => 'B' | .C => 'C' | .D => 'D' | .E => 'E' | .F => 'F'
  | .G => 'G' | .H => 'H' | .I => 'I' | .J => 'J' | .K => 'K' | .L => 'L'
  | .M => 'M' | .N => 'N' | .O => 'O' | .P => 'P' | .Q => 'Q' | .R => 'R'
  | .S => 'S' | .T => 'T' | .U => 'U' | .V => 'V' | .W => 'W' | .X => 'X'
  | .Y => 'Y' | .Z => 'Z' | .Blank => ' '

/-- Mirrors letter.rs Letter::raw_score. -/
def Letter.raw_score : Letter → Nat
  | .A => 1 | .B => 3 | .C => 3 | .D => 2 | .E => 1 | .F => 4 | .G => 2
  | .H => 4 | .I => 1 | .J => 8 | .K => 5 | .L => 1 | .M => 3 | .N => 1
  | .O => 1 | .P => 3 | .Q => 10 | .R => 1 | .S => 1 | .T => 1 | .U => 1
  | .V => 4 | .W => 4 | .X => 8 | .Y => 4 | .Z => 10 | .Blank => 0

/-- Source text of the word-multiplier table (letter.rs WORD_MULT). -/
def word_mult_str : String :=
  "
        4......3.....3......4
        .2......2...2......2.
        ..2......2.2......2..
        ...3......3......3...
        ....2...........2....
        .....2.........2.....
        ......2.......2......
        3......2.....2......3
        .2.................2.
        ..2...............2..
        ...3......2......3...
        ..2...............2..
        .2.................2.
        3......2.....2......3
        ......2.......2......
        .....2.........2.....
        ....2...........2....
        ...3......3......3...
        ..2......2.2......2..
        .2......2...2......2.
        4......3.....3......4
    "

/-- Source text of the letter-multiplier table (letter.rs LETTER_MULT). -/
def letter_mult_str : String :=
  "
        ...2......2......2...
        ....3...........3....
        .....4.........4.....
        2.....2.......2.....2
        .3......3...3......3.
        ..4......2.2......4..
        ...2......2......2...
        .....................
        ....3...3...3...3....
        .....2...2.2...2.....
        2.....2.......2.....2
        .....2...2.2...2.....
        ....3...3...3...3....
        .....................
        ...2......2......2...
        ..4......2.2......4..
        .3......3...3......3.
        2.....2.......2.....2
        .....4.........4.....
        ....3...........3....
        ...2......2......2...
    "

/-- Mirrors the parsing in letter.rs: drop newlines, carriage returns and
spaces; a dot is multiplier 1, a digit is its value. -/
def parse_mult (s : List Char) : List Nat :=
  s.filterMap fun c =>
    if c = '\n' ∨ c = '\r' ∨ c = ' ' then none
    else some (if c = '.' then 1 else c.toNat - 48)

def WORD_MULT : List Nat := parse_mult word_mult_str.toList

def LETTER_MULT : List Nat := parse_mult letter_mult_str.toList

/-- Mirrors board.rs Direction. -/
inductive Direction where
  | Right
  | Down
deriving DecidableEq

/-- Mirrors board.rs Direction::opposite. -/
def Direction.opposite : Direction → Direction
  | .Right => .Down
  | .Down => .Right

/-- Mirrors board.rs Direction::offset. -/
def Direction.offset (d : Direction) (board_size : Nat) : Nat :=
  match d with
  | .Right => 1
  | .Down => board_size

/-- Mirrors board.rs Position: a flat index paired with the board size it
was built against. -/
structure Position where
  index : Nat
  board_size : Nat
deriving DecidableEq

/-- Mirrors usize::checked_add_signed restricted to the underflow case
(the 2^64 overflow case is not modeled, see the header comment). -/
def checked_add_signed (x : Nat) (d : Int) : Option Nat :=
  if 0 ≤ (x : Int) + d then some ((x : Int) + d).toNat else none

/-- Mirrors board.rs Position::new (index = row * size + column). -/
def Position.new (board_size row column : Nat) : Position :=
  ⟨row * board_size + column, board_size⟩

/-- Mirrors board.rs Position::add_direction.  The Rust code unwraps the
checked addition, so underflow is a panic (none). -/
def Position.add_direction (p : Position) (d : Direction) (amount : Int) :
    Option Position :=
  (checked_add_signed p.index ((d.offset p.board_size : Int) * amount)).map
    (fun i => ⟨i, p.board_size⟩)

/-- Mirrors board.rs Position::try_add_direction.  The outer Option models
a panic (the unwrap on underflow, or the division by zero in the Right-row
check when the board size is 0); the inner Option is the function's own
None result.  Note the source compares with "new_index > size^2", not
">=", so an index equal to size^2 is accepted. -/
def Position.try_add_direction (p : Position) (d : Direction) (amount : Int) :
    Option (Option Position) :=
  match checked_add_signed p.index ((d.offset p.board_size : Int) * amount) with
  | none => none
  | some new_index =>
    if new_index > p.board_size * p.board_size then some none
    else if d = .Right then
      if p.board_size = 0 then none
      else if p.index / p.board_size ≠ new_index / p.board_size then some none
      else some (some ⟨new_index, p.board_size⟩)
    else some (some ⟨new_index, p.board_size⟩)

/-- Mirrors board.rs Word: start position, direction, and the word text. -/
structure Word where
  position : Position
  direction : Direction
  word : List Char
deriving DecidableEq

/-- Mirrors board.rs Board: the flat grid, the committed-move history,
and the size. -/
structure Board where
  inner : List (Option Letter)
  moves : List Word
  size : Nat
deriving DecidableEq

/-- Mirrors board.rs Board::new. -/
def Board.new (size : Nat) : Board :=
  ⟨List.replicate (size * size) none, [], size⟩

/-- Mirrors board.rs Board::get (Vec::get is total, so out-of-range reads
yield none rather than panicking). -/
def Board.get (b : Board) (p : Position) : Option Letter :=
  (b.inner.get? p.index).join

/-- Mirrors board.rs Board::set; Vec index assignment panics when the
index is out of range. -/
def Board.set (b : Board) (p : Position) (l : Option Letter) : Option Board :=
  if p.index < b.inner.length then some { b with inner := b.inner.set p.index l }
  else none

/-- Mirrors board.rs Board::enumerate_letters. -/
def Board.enumerate_letters (b : Board) : List (Position × Letter) :=
  b.inner.enum.filterMap fun x => x.2.map fun y => (Position.mk x.1 b.size, y)

/-- The write loop of board.rs Board::make_move. -/
def make_move_go (b : Board) (position : Position) (direction : Direction) :
    List Char → Option Board
  | [] => some b
  | c :: cs =>
    match Letter.from_char c with
    | none => none
    | some l =>
      match b.set position (some l) with
      | none => none
      | some b1 =>
        match position.add_direction direction 1 with
        | none => none
        | some position1 => make_move_go b1 position1 direction cs

/-- Mirrors board.rs Board::make_move: write every letter, then append
the move to the history. -/
def Board.make_move (b : Board) (position : Position) (word : List Char)
    (direction : Direction) : Option Board :=
  (make_move_go b position direction word).map fun b1 =>
    { b1 with moves := b1.moves ++ [Word.mk position direction word] }

/-- Mirrors computer.rs get_with_word: the hypothetical-overlay lookup.
Answers what a square would read if the candidate word were applied,
falling back to the real board.  The outer Option models the panics of
the source: the remainder/division by zero when the word's direction has
offset 0 (a size-0 board with Down), and the assert inside
Letter::from_char on a non-letter byte of the word. -/
def get_with_word (b : Board) (w : Word) (position : Position) :
    Option (Option Letter) :=
  if w.position.index ≤ position.index then
    let off := w.direction.offset b.size
    if off = 0 then none
    else
      let diff := position.index - w.position.index
      if diff % off = 0 ∧ diff / off < w.word.length then
        match w.word.get? (diff / off) with
        | none => none
        | some c => (Letter.from_char c).map some
      else some (b.get position)
  else some (b.get position)

/-- One bound-finding loop of computer.rs find_boundary_word: starting
from a position, repeatedly step by delta (plus or minus one square) along
the scan direction, stopping at the first missing position or empty
square.  The fuel argument over-approximates the number of iterations of
every terminating run; it runs out only where the source would loop
forever (offset 0 on a size-0 board), which we map to none. -/
def scan_loop (b : Board) (w : Word) (direction : Direction) (delta : Int) :
    Nat → Position → Option Position
  | 0, _ => none
  | fuel + 1, bound =>
    match bound.try_add_direction direction delta with
    | none => none
    | some none => some bound
    | some (some nxt) =>
      match get_with_word b w nxt with
      | none => none
      | some none => some bound
      | some (some _) => scan_loop b w direction delta fuel nxt

/-- The reading loop of computer.rs find_boundary_word: walk from the
start bound to the end bound pushing the overlay letters; the source
unwraps each lookup, so a missing letter inside the range is a panic. -/
def read_go (b : Board) (w : Word) (direction : Direction) (endIdx : Nat) :
    Nat → Position → Option (List Char)
  | 0, _ => none
  | fuel + 1, i =>
    if i.index ≤ endIdx then
      match get_with_word b w i with
      | none => none
      | some none => none
      | some (some l) =>
        match i.add_direction direction 1 with
        | none => none
        | some i1 => (read_go b w direction endIdx fuel i1).map fun r => l.to_char :: r
    else some []

/-- Mirrors computer.rs find_boundary_word.  Returns the scanned run as a
Word: its start bound, the scan direction, and its text (empty when the
two bounds coincide, exactly as in the source).  Written with Option.bind,
which is the same none-propagation as a chain of matches. -/
def find_boundary_word (b : Board) (w : Word) (word_offset : Nat)
    (direction : Direction) : Option Word :=
  (w.position.add_direction w.direction (word_offset : Int)).bind fun start =>
  (scan_loop b w direction (-1) (start.index + 1) start).bind fun start_bound =>
  (scan_loop b w direction 1 (b.size * b.size + 2) start).bind fun end_bound =>
  if start_bound = end_bound then some (Word.mk start_bound direction [])
  else
    (read_go b w direction end_bound.index (b.size * b.size + 2)
        start_bound).map
      fun cs => Word.mk start_bound direction cs

/-- The per-letter loop of computer.rs verify_move: the conflict check
(an occupied square must already hold the word's letter) followed by the
perpendicular boundary-word check. -/
def verify_letters (board : Board) (board_move : Word)
    (word_list : List (List Char)) : Nat → List Char → Option Bool
  | _, [] => some true
  | i, c :: rest =>
    match board_move.position.add_direction board_move.direction (i : Int) with
    | none => none
    | some test_position =>
      let conflict : Option Bool :=
        match board.get test_position with
        | none => some false
        | some t =>
          match Letter.from_char c with
          | none => none
          | some l => some (t ≠ l)
      match conflict with
      | none => none
      | some true => some false
      | some false =>
        match find_boundary_word board board_move i
            board_move.direction.opposite with
        | none => none
        | some nw =>
          if ¬nw.word = [] ∧
              ¬(nw.word ∈ word_list ∨ nw.word ∈ board.moves.map Word.word) then
            some false
          else verify_letters board board_move word_list (i + 1) rest

/-- Mirrors computer.rs verify_move: the in-bounds check, the
same-direction extension check, then the per-letter loop. -/
def verify_move (board : Board) (board_move : Word)
    (word_list : List (List Char)) : Option Bool :=
  match board_move.position.try_add_direction board_move.direction
      (board_move.word.length : Int) with
  | none => none
  | some none => some false
  | some (some _) =>
    match find_boundary_word board board_move 0 board_move.direction with
    | none => none
    | some nw =>
      if ¬nw.word = [] ∧
          ¬(nw.word ∈ word_list ∨ nw.word ∈ board.moves.map Word.word) then
        some false
      else verify_letters board board_move word_list 0 board_move.word

/-- The inner loop of computer.rs can_create_word: find the first rack
slot equal to the letter of the current character and overwrite it with a
Blank.  The outer Option models the from_char assert (evaluated once per
compared slot, hence never on an empty rack); the inner Option is
"no matching slot". -/
def inner_find : List Letter → Char → Option (Option (List Letter))
  | [], _ => some none
  | l :: rest, c =>
    match Letter.from_char c with
    | none => none
    | some t =>
      if l = t then some (some (Letter.Blank :: rest))
      else (inner_find rest c).map (Option.map fun r => l :: r)

/-- The outer loop of computer.rs can_create_word. -/
def can_create_word_go (rack : List Letter) (blank_count : Nat) :
    List Char → Option Bool
  | [] => some true
  | c :: cs =>
    match inner_find rack c with
    | none => none
    | some (some rack1) => can_create_word_go rack1 blank_count cs
    | some none =>
      if blank_count > 0 then can_create_word_go rack (blank_count - 1) cs
      else some false

/-- Mirrors computer.rs can_create_word. -/
def can_create_word (rack : List Letter) (word : List Char) : Option Bool :=
  can_create_word_go rack (rack.count Letter.Blank) word

/-- The filter of computer.rs get_move_positions: the indices of the
word's characters whose letter equals the anchor's tile.  Both
Letter::from_char and the board.get(location).unwrap() live inside the
filter closure, so both can panic, and only when the word is nonempty. -/
def gmp_filter (b : Board) (location : Position) :
    List (Nat × Char) → Option (List Nat)
  | [] => some []
  | (sp, c) :: rest =>
    match Letter.from_char c with
    | none => none
    | some l =>
      match b.get location with
      | none => none
      | some al =>
        (gmp_filter b location rest).map fun r =>
          if l = al then sp :: r else r

/-- Builds the candidate Words for one direction in computer.rs
get_move_positions; add_direction with a negative amount can panic. -/
def gmp_build (location : Position) (word : List Char)
    (direction : Direction) : List Nat → Option (List Word)
  | [] => some []
  | sp :: rest =>
    match location.add_direction direction (-(sp : Int)) with
    | none => none
    | some starting_position =>
      (gmp_build location word direction rest).map fun r =>
        Word.mk starting_position direction word :: r

/-- Mirrors computer.rs get_move_positions: for each direction in
[Down, Right], one candidate per occurrence of the anchor's letter in the
word. -/
def get_move_positions (b : Board) (location : Position) (word : List Char) :
    Option (List Word) :=
  match gmp_filter b location word.enum with
  | none => none
  | some sps_down =>
    match gmp_build location word .Down sps_down with
    | none => none
    | some downs =>
      match gmp_filter b location word.enum with
      | none => none
      | some sps_right =>
        match gmp_build location word .Right sps_right with
        | none => none
        | some rights => some (downs ++ rights)

/-- The scoring loop of board.rs Word::get_score, parameterized by the
function used to score the cross word found at a newly covered square.
The source recurses into Word::get_score with a Some secondary index
there; passing the recursive call explicitly keeps the recursion
structurally bounded to the one level the source actually uses (the
callee's secondary index is Some, so its own cross branch is dead code —
proved below as score_loop_secondary_cross_free). -/
def score_loop (b : Board) (w : Word) (secondary : Option Nat)
    (cross : Word → Nat → Option Nat) :
    Nat → List Char → Nat → Nat → Nat → Option Nat
  | _, [], sum, post_sum, word_mul => some (sum * word_mul + post_sum)
  | i, c :: rest, sum, post_sum, word_mul =>
    match w.position.add_direction w.direction (i : Int) with
    | none => none
    | some location =>
      let letter_mul : Nat :=
        if secondary = none ∨ secondary = some i then
          (LETTER_MULT.get? location.index).getD 1
        else 1
      let word_mul1 : Nat :=
        if secondary = none ∨ secondary = some i then
          word_mul * ((WORD_MULT.get? location.index).getD 1)
        else word_mul
      let stepped_post : Option Nat :=
        if secondary = none ∧ b.get location = none then
          match find_boundary_word b w i w.direction.opposite with
          | none => none
          | some boundary_word =>
            if location.index < boundary_word.position.index then none
            else
              let off := boundary_word.direction.offset b.size
              if off = 0 then none
              else
                (cross boundary_word
                    ((location.index - boundary_word.position.index) / off)).map
                  fun cw => post_sum + cw
        else some post_sum
      match stepped_post with
      | none => none
      | some post_sum1 =>
        match Letter.from_char c with
        | none => none
        | some l =>
          score_loop b w secondary cross (i + 1) rest
            (sum + l.raw_score * letter_mul) post_sum1 word_mul1

/-- The secondary call of board.rs Word::get_score (scoring a cross word
relative to its shared letter); it never reaches its own cross branch, so
we pass an inert function there. -/
def cross_score (b : Board) : Word → Nat → Option Nat :=
  fun bw j => score_loop b bw (some j) (fun _ _ => none) 0 bw.word 0 0 1

/-- Mirrors board.rs Word::get_score. -/
def Word.get_score (w : Word) (b : Board) (secondary : Option Nat) :
    Option Nat :=
  score_loop b w secondary (cross_score b) 0 w.word 0 0 1

/-- Score-and-pair step of computer.rs best_moves: each candidate is
eagerly scored against the board (as a primary word: the call site passes
no secondary index). -/
def mapM_scores (b : Board) : List Word → Option (List (Nat × Word))
  | [] => some []
  | w :: ws =>
    match Word.get_score w b none with
    | none => none
    | some s =>
      (mapM_scores b ws).map fun r => (s, w) :: r

/-- The lexicon filter of computer.rs best_moves (words the augmented
rack can spell). -/
def feasible_words (rack : List Letter) :
    List (List Char) → Option (List (List Char))
  | [] => some []
  | w :: ws =>
    match can_create_word rack w with
    | none => none
    | some keep =>
      (feasible_words rack ws).map fun r => if keep then w :: r else r

/-- The per-word inner loop of computer.rs best_moves. -/
def words_candidates (b : Board) (location : Position) :
    List (List Char) → Option (List (Nat × Word))
  | [] => some []
  | w :: ws =>
    match get_move_positions b location w with
    | none => none
    | some mps =>
      match mapM_scores b mps with
      | none => none
      | some scored =>
        (words_candidates b location ws).map fun r => scored ++ r

/-- The per-anchor outer loop of computer.rs best_moves: push the
anchor's tile onto the rack, collect scored candidates, pop it again. -/
def collect_anchors (b : Board) (rack : List Letter)
    (word_list : List (List Char)) :
    List (Position × Letter) → Option (List (Nat × Word))
  | [] => some []
  | (location, letter) :: rest =>
    match feasible_words (rack ++ [letter]) word_list with
    | none => none
    | some ws =>
      match words_candidates b location ws with
      | none => none
      | some cands =>
        (collect_anchors b rack word_list rest).map fun r => cands ++ r

/-- The sort key ordering of computer.rs best_moves
(sort_unstable_by_key on the score). -/
def keyLE (x y : Nat × Word) : Prop := x.1 ≤ y.1

instance : DecidableRel keyLE := fun x y => inferInstanceAs (Decidable (x.1 ≤ y.1))

instance : IsTotal (Nat × Word) keyLE := ⟨fun a b => Nat.le_total a.1 b.1⟩

instance : IsTrans (Nat × Word) keyLE := ⟨fun _ _ _ => Nat.le_trans⟩

/-- The lazily applied legality filter of computer.rs best_moves;
verify_move's panics propagate to the consumer. -/
def mon_filter (f : α → Option Bool) : List α → Option (List α)
  | [] => some []
  | x :: xs =>
    match f x with
    | none => none
    | some keep =>
      (mon_filter f xs).map fun r => if keep then x :: r else r

/-- Mirrors computer.rs best_moves: collect scored candidates per anchor,
sort ascending by score, consume in reverse (descending) order, filtering
through the validator, and drop the scores. -/
def best_moves (b : Board) (letters : List Letter)
    (word_list : List (List Char)) : Option (List Word) :=
  match collect_anchors b letters word_list b.enumerate_letters with
  | none => none
  | some best =>
    (mon_filter (fun m => verify_move b m.2 word_list)
        (List.insertionSort keyLE best).reverse).map
      fun kept => kept.map Prod.snd

/-- Letter-sum pass of the primary scorer's loop: each letter's raw score
times its letter-multiplier.  This is the loop fission of score_loop's sum
accumulator; note it takes no Board. -/
def sum_go (w : Word) : Nat → List Char → Option Nat
  | _, [] => some 0
  | i, c :: rest =>
    match w.position.add_direction w.direction (i : Int) with
    | none => none
    | some location =>
      match Letter.from_char c with
      | none => none
      | some l =>
        (sum_go w (i + 1) rest).map fun s =>
          l.raw_score * ((LETTER_MULT.get? location.index).getD 1) + s

/-- Word-multiplier pass of the primary scorer's loop; takes no Board. -/
def mul_go (w : Word) : Nat → List Char → Option Nat
  | _, [] => some 1
  | i, _ :: rest =>
    match w.position.add_direction w.direction (i : Int) with
    | none => none
    | some location =>
      (mul_go w (i + 1) rest).map fun m =>
        ((WORD_MULT.get? location.index).getD 1) * m

/-- Cross-word pass of the primary scorer's loop: the sum of the
secondary scores triggered at each newly covered square. -/
def post_go (b : Board) (w : Word) (cross : Word → Nat → Option Nat) :
    Nat → List Char → Option Nat
  | _, [] => some 0
  | i, _ :: rest =>
    match w.position.add_direction w.direction (i : Int) with
    | none => none
    | some location =>
      let here : Option Nat :=
        if b.get location = none then
          match find_boundary_word b w i w.direction.opposite with
          | none => none
          | some bw =>
            if location.index < bw.position.index then none
            else
              let off := bw.direction.offset b.size
              if off = 0 then none
              else cross bw ((location.index - bw.position.index) / off)
        else some 0
      match here with
      | none => none
      | some p => (post_go b w cross (i + 1) rest).map fun q => p + q

def sum_pass (w : Word) : Option Nat := sum_go w 0 w.word

def word_mul_pass (w : Word) : Option Nat := mul_go w 0 w.word

def post_pass (b : Board) (w : Word) : Option Nat :=
  post_go b w (cross_score b) 0 w.word

/-- Modelled from the spec (§4.6, claim C1): the same scoring loop, except
that a square's letter- and word-premium applies only while that square is
not yet occupied on the real Board.  Used only to compare the code's
scorer against the spec's premium-consumption rule. -/
def score_loop_spec (b : Board) (w : Word) (secondary : Option Nat)
    (cross : Word → Nat → Option Nat) :
    Nat → List Char → Nat → Nat → Nat → Option Nat
  | _, [], sum, post_sum, word_mul => some (sum * word_mul + post_sum)
  | i, c :: rest, sum, post_sum, word_mul =>
    match w.position.add_direction w.direction (i : Int) with
    | none => none
    | some location =>
      let letter_mul : Nat :=
        if (secondary = none ∨ secondary = some i) ∧ b.get location = none then
          (LETTER_MULT.get? location.index).getD 1
        else 1
      let word_mul1 : Nat :=
        if (secondary = none ∨ secondary = some i) ∧ b.get location = none then
          word_mul * ((WORD_MULT.get? location.index).getD 1)
        else word_mul
      let stepped_post : Option Nat :=
        if secondary = none ∧ b.get location = none then
          match find_boundary_word b w i w.direction.opposite with
          | none => none
          | some boundary_word =>
            if location.index < boundary_word.position.index then none
            else
              let off := boundary_word.direction.offset b.size
              if off = 0 then none
              else
                (cross boundary_word
                    ((location.index - boundary_word.position.index) / off)).map
                  fun cw => post_sum + cw
        else some post_sum
      match stepped_post with
      | none => none
      | some post_sum1 =>
        match Letter.from_char c with
        | none => none
        | some l =>
          score_loop_spec b w secondary cross (i + 1) rest
            (sum + l.raw_score * letter_mul) post_sum1 word_mul1

/-- Spec-side scorer with consumed-premium semantics (see
score_loop_spec). -/
def get_score_spec_premium (w : Word) (b : Board) (secondary : Option Nat) :
    Option Nat :=
  score_loop_spec b w secondary
    (fun bw j => score_loop_spec b bw (some j) (fun _ _ => none) 0 bw.word 0 0 1)
    0 w.word 0 0 1

/-- Proof-device form of inner_find once from_char has resolved: replace
the first slot holding the target with a Blank. -/
def replace_slot : List Letter → Letter → Option (List Letter)
  | [], _ => none
  | l :: rest, t =>
    if l = t then some (Letter.Blank :: rest)
    else (replace_slot rest t).map fun r => l :: r

/-- Remove the first occurrence of a tile from a rack (none if absent). -/
def remove_first : List Letter → Letter → Option (List Letter)
  | [], _ => none
  | l :: rest, t =>
    if l = t then some rest
    else (remove_first rest t).map fun r => l :: r

/-- Modelled from the spec (§4.2, claim C7): greedily consume, for each
required letter, an exact-match tile remaining in the rack; if none
remains, consume one blank tile if available; otherwise fail. -/
def greedy_spec (rack : List Letter) : List Letter → Bool
  | [] => true
  | t :: ts =>
    match remove_first rack t with
    | some rack1 => greedy_spec rack1 ts
    | none =>
      match remove_first rack Letter.Blank with
      | some rack1 => greedy_spec rack1 ts
      | none => false

/-- The arithmetic blank-deficiency measure of claim C10: the sum over
each distinct letter of the word of its occurrences in the word minus its
occurrences in the rack (truncated at zero). -/
def needed_sum (ts rack : List Letter) : Nat :=
  (ts.dedup.map fun t => ts.count t - rack.count t).sum

/-- Board of size 5 with the move AB committed rightward from index 0
(covering the corner, whose word multiplier is 4). -/
def ab_board5 : Board :=
  ((Board.new 5).make_move ⟨0, 5⟩ ['A', 'B'] .Right).getD (Board.new 5)

/-- Candidate AD placed downward from index 0, overlapping the already
occupied corner square. -/
def ad_word : Word := Word.mk ⟨0, 5⟩ .Down ['A', 'D']

/-- An eight-letter word along row 7 (whose letter multipliers are all 1
and whose only word multiplier on these squares is the 2 at column 7). -/
def bonus8_word : Word :=
  Word.mk ⟨148, 21⟩ .Right ['A', 'A', 'A', 'A', 'A', 'A', 'A', 'A']

/-- Board of size 5 holding Z at index 1 (row 0) and K at index 12. -/
def zk_board : Board :=
  (((Board.new 5).make_move ⟨1, 5⟩ ['Z'] .Right).bind
    (fun b => b.make_move ⟨12, 5⟩ ['K'] .Right)).getD (Board.new 5)

/-- Candidate AB placed downward from index 6 of zk_board: its second
letter forms the perpendicular run BK, and the same-direction extension
scan at its start runs upward through the occupied Z into an index
underflow. -/
def zk_cand : Word := Word.mk ⟨6, 5⟩ .Down ['A', 'B']

def zk_cross : Word := Word.mk ⟨11, 5⟩ .Right ['B', 'K']

def zk_lex : List (List Char) := [['A', 'B']]

/-- The test fixture of computer.rs: RUST rightward and RADICAL downward,
both from (11,11) (index 242) of a standard 21-size board. -/
def rust_board : Board :=
  (((Board.new 21).make_move ⟨242, 21⟩ ['R', 'U', 'S', 'T'] .Right).bind
    (fun b =>
      b.make_move ⟨242, 21⟩ ['R', 'A', 'D', 'I', 'C', 'A', 'L'] .Down)).getD
    (Board.new 21)

/-- RUST placed rightward one row above its legal crossing point
(index 222 = (10,12) in row-major terms). -/
def rust_cand : Word := Word.mk ⟨222, 21⟩ .Right ['R', 'U', 'S', 'T']

/-- The perpendicular run formed at the candidate's first letter. -/
def rust_cross : Word := Word.mk ⟨222, 21⟩ .Down ['R', 'U']

def rust_lex : List (List Char) :=
  [['R', 'U', 'S', 'T'], ['R', 'A', 'D', 'I', 'C', 'A', 'L']]

/-- Board of size 4 with the single letter A committed at index 5. -/
def b4 : Board :=
  ((Board.new 4).make_move ⟨5, 4⟩ ['A'] .Right).getD (Board.new 4)

/-- The two words yielded by best_moves on b4 with rack [B] and lexicon
[AB]. -/
def b4_out : List Word :=
  [Word.mk ⟨5, 4⟩ .Right ['A', 'B'], Word.mk ⟨5, 4⟩ .Down ['A', 'B']]

/-- Board of size 4 with AB committed rightward from index 5. -/
def b4ab : Board :=
  ((Board.new 4).make_move ⟨5, 4⟩ ['A', 'B'] .Right).getD (Board.new 4)

/-- Board of size 3 with the single letter A committed at index 1. -/
def a3_board : Board :=
  ((Board.new 3).make_move ⟨1, 3⟩ ['A'] .Right).getD (Board.new 3)

theorem checked_add_signed_nat (x m : Nat) :
    checked_add_signed x ((m : Nat) : Int) = some (x + m) := by
  unfold checked_add_signed
  rw [if_pos (by positivity)]
  congr 1

theorem checked_add_signed_sub (x m : Nat) (h : m ≤ x) :
    checked_add_signed x (-(m : Int)) = some (x - m) := by
  unfold checked_add_signed
  rw [if_pos (by omega)]
  congr 1
  omega

theorem checked_add_signed_sub_underflow (x m : Nat) (h : x < m) :
    checked_add_signed x (-(m : Int)) = none := by
  unfold checked_add_signed
  rw [if_neg (by omega)]

theorem add_direction_nat (p : Position) (d : Direction) (k : Nat) :
    p.add_direction d (k : Int) =
      some ⟨p.index + d.offset p.board_size * k, p.board_size⟩ := by
  have hm : (d.offset p.board_size : Int) * (k : Int)
      = ((d.offset p.board_size * k : Nat) : Int) := by push_cast; ring
  rw [Position.add_direction, hm, checked_add_signed_nat]
  rfl

theorem try_add_nat (p : Position) (d : Direction) (k : Nat) :
    p.try_add_direction d (k : Int) =
      (if p.index + d.offset p.board_size * k > p.board_size * p.board_size then
        some none
      else if d = .Right then
        if p.board_size = 0 then none
        else if p.index / p.board_size ≠
            (p.index + d.offset p.board_size * k) / p.board_size then some none
        else some (some ⟨p.index + d.offset p.board_size * k, p.board_size⟩)
      else some (some ⟨p.index + d.offset p.board_size * k, p.board_size⟩)) := by
  have hm : (d.offset p.board_size : Int) * (k : Int)
      = ((d.offset p.board_size * k : Nat) : Int) := by push_cast; ring
  unfold Position.try_add_direction
  rw [hm, checked_add_signed_nat]

theorem try_add_neg_one (x s : Nat) (d : Direction) (hx : d.offset s ≤ x) :
    (Position.mk x s).try_add_direction d (-1) =
      (if x - d.offset s > s * s then some none
      else if d = .Right then
        if s = 0 then none
        else if x / s ≠ (x - d.offset s) / s then some none
        else some (some ⟨x - d.offset s, s⟩)
      else some (some ⟨x - d.offset s, s⟩)) := by
  have hm : (d.offset s : Int) * (-1) = -((d.offset s : Nat) : Int) := by ring
  unfold Position.try_add_direction
  rw [hm, checked_add_signed_sub _ _ hx]

theorem try_add_neg_one_underflow (x s : Nat) (d : Direction)
    (hx : x < d.offset s) :
    (Position.mk x s).try_add_direction d (-1) = none := by
  have hm : (d.offset s : Int) * (-1) = -((d.offset s : Nat) : Int) := by ring
  unfold Position.try_add_direction
  rw [hm, checked_add_signed_sub_underflow _ _ hx]

theorem div_stable (s q r : Nat) (hs : 0 < s) (hr : r < s) :
    (s * q + r) / s = q := by
  rw [Nat.mul_add_div hs, Nat.div_eq_of_lt hr]
  omega

/-- C3: the claim — bounds-checked stepping returns None (and never
crashes) exactly when the stepped index leaves [0, size²) or a
Right-directed step wraps a row — does not hold of the code.  The source
compares with "new_index > size.pow(2)" rather than ">=", so stepping
Down from index 420 of a 21-board returns Some of the out-of-grid index
441 = 21²; and the unwrap on the checked addition panics (modeled none)
when the step underflows, e.g. Down by −1 from index 0. -/
theorem c3_try_add_direction_off_by_one_and_panic :
    (Position.mk 420 21).try_add_direction .Down 1 = some (some ⟨441, 21⟩) ∧
    ¬ 441 < 21 * 21 ∧
    (Position.mk 0 21).try_add_direction .Down (-1) = none := by decide

theorem score_loop_secondary_free (b b' : Board) (w : Word) (j : Nat)
    (cross cross' : Word → Nat → Option Nat) :
    ∀ (rest : List Char) (i sum post wm : Nat),
    score_loop b w (some j) cross i rest sum post wm =
      score_loop b' w (some j) cross' i rest sum post wm := by
  intro rest
  induction rest with
  | nil => intro i sum post wm; rfl
  | cons c rest ih =>
    intro i sum post wm
    simp only [score_loop]
    cases w.position.add_direction w.direction (i : Int) with
    | none => rfl
    | some location =>
      simp only [reduceCtorEq, false_and, if_false]
      cases Letter.from_char c with
      | none => rfl
      | some l => exact ih _ _ _ _

/-- C9 (amended): the mutual recursion between the scorer and the
boundary-word scan is bounded to one level.  A call to Word::get_score
with a Some secondary index is independent of the board and of whatever
cross-scoring function is plugged into the loop: it never consults board
contents, never invokes find_boundary_word, and never spawns a further
scoring pass.  The original claim's further conjunct — that every call to
Word::get_score terminates — is refuted by the counterexample below: on a
zero-size board the primary scorer's perpendicular scan steps with offset
0 and never advances. -/
theorem c9_secondary_scoring_never_recurses (b b' : Board) (w : Word)
    (j : Nat) (cross : Word → Nat → Option Nat) :
    Word.get_score w b (some j) = score_loop b' w (some j) cross 0 w.word 0 0 1 :=
  score_loop_secondary_free b b' w j (cross_score b) cross w.word 0 0 0 1

theorem score_loop_none_split (b : Board) (w : Word)
    (cross : Word → Nat → Option Nat) :
    ∀ (rest : List Char) (i sum post wm : Nat),
    score_loop b w none cross i rest sum post wm =
      (sum_go w i rest).bind fun s =>
      (mul_go w i rest).bind fun m =>
      (post_go b w cross i rest).map fun p =>
        (sum + s) * (wm * m) + (post + p) := by
  intro rest
  induction rest with
  | nil =>
    intro i sum post wm
    simp [score_loop, sum_go, mul_go, post_go]
  | cons c rest ih =>
    intro i sum post wm
    cases hloc : w.position.add_direction w.direction (i : Int) with
    | none => simp [score_loop, sum_go, mul_go, post_go, hloc]
    | some location =>
      simp only [score_loop, sum_go, mul_go, post_go, hloc]
      by_cases hg : b.get location = none
      · simp only [hg, true_and, if_true, eq_self_iff_true, true_or, if_pos]
        cases hfb : find_boundary_word b w i w.direction.opposite with
        | none =>
          simp only [hfb]
          cases hfc : Letter.from_char c <;>
            cases hsg : sum_go w (i + 1) rest <;>
            cases hmg : mul_go w (i + 1) rest <;>
            simp
        | some bw =>
          by_cases hlt : location.index < bw.position.index
          · simp only [hfb, hlt, if_pos]
            cases hfc : Letter.from_char c <;>
              cases hsg : sum_go w (i + 1) rest <;>
              cases hmg : mul_go w (i + 1) rest <;>
              simp
          · by_cases hoff : bw.direction.offset b.size = 0
            · simp only [hfb, hlt, hoff, if_neg, if_pos]
              cases hfc : Letter.from_char c <;>
                cases hsg : sum_go w (i + 1) rest <;>
                cases hmg : mul_go w (i + 1) rest <;>
                simp
            · cases hc : cross bw
                  ((location.index - bw.position.index) /
                    bw.direction.offset b.size) with
              | none =>
                simp only [hfb, hlt, hoff, hc, if_neg, if_pos]
                cases hfc : Letter.from_char c <;>
                  cases hsg : sum_go w (i + 1) rest <;>
                  cases hmg : mul_go w (i + 1) rest <;>
                  simp
              | some cw =>
                cases hfc : Letter.from_char c with
                | none =>
                  simp only [hfb, hlt, hoff, hc, hfc, if_neg, if_pos]
                  simp
                | some l =>
                  simp only [hfb, hlt, hoff, hc, hfc, if_neg, if_pos, if_false]
                  simp [ih]
                  cases hsg : sum_go w (i + 1) rest <;>
                    cases hmg : mul_go w (i + 1) rest <;>
                    cases hpg : post_go b w cross (i + 1) rest <;>
                    simp <;> ring
      · simp only [hg, and_false, if_false, false_and]
        cases hfc : Letter.from_char c with
        | none =>
          cases hsg : sum_go w (i + 1) rest <;> simp
        | some l =>
          simp [ih]
          cases hsg : sum_go w (i + 1) rest <;>
            cases hmg : mul_go w (i + 1) rest <;>
            cases hpg : post_go b w cross (i + 1) rest <;>
            simp <;> ring

theorem get_score_none_split (b : Board) (w : Word) :
    Word.get_score w b none =
      (sum_pass w).bind fun s =>
      (word_mul_pass w).bind fun m =>
      (post_pass b w).map fun p => s * m + p := by
  have h := score_loop_none_split b w (cross_score b) w.word 0 0 0 1
  rw [Word.get_score, h, sum_pass, word_mul_pass, post_pass]
  cases sum_go w 0 w.word <;>
    cases mul_go w 0 w.word <;>
    cases post_go b w (cross_score b) 0 w.word <;>
    simp

/-- C1 counterexample: the claim — a square's letter- and word-multiplier
contribute to the score only while the square is unoccupied, and a premium
under a previously committed move is never counted again — is false.  On a
size-5 board where the committed move AB already covers the corner square
(word multiplier 4), scoring AD Down across that corner yields 12: the
spent 4-premium is applied again.  The spec-faithful scorer
(get_score_spec_premium), which consumes premiums only at unoccupied
squares, yields 3. -/
theorem c1_counterexample_premium_counted_again :
    Word.get_score ad_word ab_board5 none = some 12 ∧
    get_score_spec_premium ad_word ab_board5 none = some 3 ∧
    Word.get_score ad_word ab_board5 none ≠
      get_score_spec_premium ad_word ab_board5 none := by decide

/-- C1 (amended): Word::get_score applies letter- and word-multipliers at
every square of a primary word regardless of whether the square is already
occupied on the Board; occupancy gates only whether a perpendicular cross
word is scored.  Formally the primary score splits into a letter-sum pass
and a word-multiplier pass that do not take the board at all, plus the
board-dependent cross-word pass. -/
theorem c1_premiums_applied_regardless_of_occupancy (b : Board) (w : Word) :
    Word.get_score w b none =
      (sum_pass w).bind fun s =>
      (word_mul_pass w).bind fun m =>
      (post_pass b w).map fun p => s * m + p :=
  get_score_none_split b w

/-- C2 counterexample: the claim — a word of the configured
maximum-bonus length 8 has the fixed bonus 50 added to its total — is
false: no such bonus exists anywhere in Word::get_score.  The eight-letter
word AAAAAAAA placed on row 7 of an empty board scores 16; a total that
included an added 50 would be at least 50. -/
theorem c2_counterexample_no_fifty_bonus :
    Word.get_score bonus8_word (Board.new 21) none = some 16 ∧ 16 < 50 := by
  decide

/-- C2 (amended): Word::get_score adds no length bonus.  For a word of
length 8, exactly as for any other length, the total is the letter-sum
times the word-multiplier plus the cross-word sum, with no extra term. -/
theorem c2_length_eight_scores_without_bonus (b : Board) (w : Word)
    (h8 : w.word.length = 8) :
    Word.get_score w b none =
      (sum_pass w).bind fun s =>
      (word_mul_pass w).bind fun m =>
      (post_pass b w).map fun p => s * m + p :=
  get_score_none_split b w

theorem c2_length_eight_scores_without_bonus_witness :
    bonus8_word.word.length = 8 ∧
    (Word.get_score bonus8_word (Board.new 21) none =
      (sum_pass bonus8_word).bind fun s =>
      (word_mul_pass bonus8_word).bind fun m =>
      (post_pass (Board.new 21) bonus8_word).map fun p => s * m + p) :=
  ⟨by decide, c2_length_eight_scores_without_bonus (Board.new 21) bonus8_word
    (by decide)⟩

theorem inner_find_eq {c : Char} {t : Letter} (ht : Letter.from_char c = some t) :
    ∀ rack : List Letter, inner_find rack c = some (replace_slot rack t)
  | [] => rfl
  | l :: rest => by
    simp only [inner_find, replace_slot, ht]
    by_cases hl : l = t
    · simp [hl]
    · simp only [hl, if_false, if_neg]
      rw [inner_find_eq ht rest]
      cases replace_slot rest t <;> simp

theorem replace_slot_none {t : Letter} :
    ∀ {rack : List Letter}, replace_slot rack t = none ↔ rack.count t = 0
  | [] => by simp [replace_slot]
  | l :: rest => by
    by_cases hl : l = t
    · simp [replace_slot, hl, List.count_cons]
    · simp only [replace_slot, hl, if_false, if_neg, Option.map_eq_none',
        List.count_cons]
      rw [replace_slot_none]
      simp [hl]

theorem replace_slot_counts {t : Letter} (hnb : t ≠ Letter.Blank) :
    ∀ {rack r1 : List Letter}, replace_slot rack t = some r1 →
      r1.count t + 1 = rack.count t ∧
      ∀ u : Letter, u ≠ t → u ≠ Letter.Blank → r1.count u = rack.count u
  | [], _ => by simp [replace_slot]
  | l :: rest, r1 => by
    by_cases hl : l = t
    · simp only [replace_slot, hl, if_true, eq_self_iff_true, if_pos,
        Option.some.injEq]
      intro h
      subst h
      constructor
      · simp [List.count_cons, Ne.symm hnb]
      · intro u hut hub
        simp [List.count_cons, Ne.symm hub, Ne.symm hut]
    · simp only [replace_slot, hl, if_false, if_neg]
      cases hr : replace_slot rest t with
      | none => simp
      | some r2 =>
        intro h
        have h2 := replace_slot_counts hnb hr
        simp only [Option.map_some', Option.some.injEq] at h
        subst h
        constructor
        · simp only [List.count_cons]
          have hne : ¬ (t = l) := fun hx => hl hx.symm
          simp [hne]
          omega
        · intro u hut hub
          simp only [List.count_cons]
          rw [h2.2 u hut hub]

theorem remove_first_none {t : Letter} :
    ∀ {rack : List Letter}, remove_first rack t = none ↔ rack.count t = 0
  | [] => by simp [remove_first]
  | l :: rest => by
    by_cases hl : l = t
    · simp [remove_first, hl, List.count_cons]
    · simp only [remove_first, hl, if_false, if_neg, Option.map_eq_none',
        List.count_cons]
      rw [remove_first_none]
      simp [hl]

theorem remove_first_counts {t : Letter} :
    ∀ {rack r1 : List Letter}, remove_first rack t = some r1 →
      r1.count t + 1 = rack.count t ∧
      ∀ u : Letter, u ≠ t → r1.count u = rack.count u
  | [], _ => by simp [remove_first]
  | l :: rest, r1 => by
    by_cases hl : l = t
    · simp only [remove_first, hl, if_true, eq_self_iff_true, if_pos,
        Option.some.injEq]
      intro h
      subst h
      constructor
      · simp [List.count_cons]
      · intro u hut
        simp [List.count_cons, Ne.symm hut]
    · simp only [remove_first, hl, if_false, if_neg]
      cases hr : remove_first rest t with
      | none => simp
      | some r2 =>
        intro h
        have h2 := remove_first_counts hr
        simp only [Option.map_some', Option.some.injEq] at h
        subst h
        constructor
        · simp only [List.count_cons]
          have hne : ¬ (t = l) := fun hx => hl hx.symm
          simp [hne]
          omega
        · intro u hut
          simp only [List.count_cons]
          rw [h2.2 u hut]

theorem can_create_word_go_greedy :
    ∀ {cs : List Char} {ts : List Letter},
    List.Forall₂ (fun c t => Letter.from_char c = some t) cs ts →
    (∀ t ∈ ts, t ≠ Letter.Blank) →
    ∀ (rackC rackS : List Letter),
    (∀ u : Letter, u ≠ Letter.Blank → rackC.count u = rackS.count u) →
    can_create_word_go rackC (rackS.count Letter.Blank) cs =
      some (greedy_spec rackS ts) := by
  intro cs ts hf
  induction hf with
  | nil => intro hnb rackC rackS hinv; rfl
  | @cons c t cs ts hct hrest ih =>
    intro hnb rackC rackS hinv
    have htb : t ≠ Letter.Blank := hnb t (by simp)
    have hnb2 : ∀ u ∈ ts, u ≠ Letter.Blank := fun u hu => hnb u (by simp [hu])
    simp only [can_create_word_go, greedy_spec, inner_find_eq hct]
    cases hrc : replace_slot rackC t with
    | some r1 =>
      have hc1 := replace_slot_counts htb hrc
      have hposS : rackS.count t ≠ 0 := by
        rw [← hinv t htb]; omega
      cases hrs : remove_first rackS t with
      | none => exact absurd (remove_first_none.mp hrs) hposS
      | some r2 =>
        have hc2 := remove_first_counts hrs
        have hblank : rackS.count Letter.Blank = r2.count Letter.Blank :=
          (hc2.2 Letter.Blank (Ne.symm htb)).symm
        rw [hblank]
        exact ih hnb2 r1 r2 (by
          intro u hub
          by_cases hut : u = t
          · subst hut
            have := hinv u hub
            omega
          · rw [hc1.2 u hut hub, hinv u hub, hc2.2 u hut])
    | none =>
      have hzC : rackC.count t = 0 := replace_slot_none.mp hrc
      have hzS : rackS.count t = 0 := by rw [← hinv t htb]; exact hzC
      rw [(remove_first_none).mpr hzS]
      by_cases hk : rackS.count Letter.Blank > 0
      · rw [if_pos hk]
        cases hrb : remove_first rackS Letter.Blank with
        | none =>
          have := remove_first_none.mp hrb
          omega
        | some rB =>
          have hcB := remove_first_counts hrb
          have : rackS.count Letter.Blank - 1 = rB.count Letter.Blank := by
            omega
          rw [this]
          exact ih hnb2 rackC rB (by
            intro u hub
            rw [hinv u hub, hcB.2 u hub])
      · rw [if_neg hk]
        have hz : rackS.count Letter.Blank = 0 := by omega
        rw [(remove_first_none).mpr hz]

theorem can_create_word_eq_greedy {cs : List Char} {ts : List Letter}
    (hf : List.Forall₂ (fun c t => Letter.from_char c = some t) cs ts)
    (hnb : ∀ t ∈ ts, t ≠ Letter.Blank) (rack : List Letter) :
    can_create_word rack cs = some (greedy_spec rack ts) :=
  can_create_word_go_greedy hf hnb rack rack (fun _ _ => rfl)

/-- C7: can_create_word returns exactly the result of the spec's greedy
procedure — for each letter of the word in order, consume an exact-match
tile remaining in the rack if one exists, else consume one remaining
blank, else fail — for every rack and every word of uppercase letters
(given as the character list together with its letter values). -/
theorem c7_can_create_word_is_greedy (rack : List Letter) (cs : List Char)
    (ts : List Letter)
    (hf : List.Forall₂ (fun c t => Letter.from_char c = some t) cs ts)
    (hnb : ∀ t ∈ ts, t ≠ Letter.Blank) :
    can_create_word rack cs = some (greedy_spec rack ts) :=
  can_create_word_eq_greedy hf hnb rack

theorem c7_can_create_word_is_greedy_witness :
    List.Forall₂ (fun c t => Letter.from_char c = some t) ['A', 'A', 'B']
      [Letter.A, Letter.A, Letter.B] ∧
    (∀ t ∈ [Letter.A, Letter.A, Letter.B], t ≠ Letter.Blank) ∧
    can_create_word [Letter.A, Letter.Blank, Letter.B] ['A', 'A', 'B'] =
      some (greedy_spec [Letter.A, Letter.Blank, Letter.B]
        [Letter.A, Letter.A, Letter.B]) :=
  ⟨by repeat constructor, by decide,
    c7_can_create_word_is_greedy [Letter.A, Letter.Blank, Letter.B]
      ['A', 'A', 'B'] [Letter.A, Letter.A, Letter.B]
      (by repeat constructor) (by decide)⟩

theorem map_sum_congr {ks : List Letter} {f g : Letter → Nat}
    (h : ∀ l ∈ ks, f l = g l) : (ks.map f).sum = (ks.map g).sum := by
  induction ks with
  | nil => rfl
  | cons a ks ih =>
    simp only [List.map_cons, List.sum_cons]
    rw [h a (by simp), ih (fun l hl => h l (by simp [hl]))]

theorem sum_map_bump {ks : List Letter} {t : Letter} {f g : Letter → Nat}
    (hnd : ks.Nodup) (ht : t ∈ ks) (hbump : f t = g t + 1)
    (hoth : ∀ l, l ≠ t → f l = g l) :
    (ks.map f).sum = (ks.map g).sum + 1 := by
  induction ks with
  | nil => cases ht
  | cons a ks ih =>
    rw [List.nodup_cons] at hnd
    cases List.mem_cons.mp ht with
    | inl h =>
      subst h
      have hcg : ∀ l ∈ ks, f l = g l :=
        fun l hl => hoth l (fun he => hnd.1 (he ▸ hl))
      simp only [List.map_cons, List.sum_cons, hbump, map_sum_congr hcg]
      omega
    | inr h =>
      have hat : a ≠ t := fun he => hnd.1 (he ▸ h)
      simp only [List.map_cons, List.sum_cons, hoth a hat, ih hnd.2 h]
      omega

theorem needed_sum_cons_consume {t : Letter} {ts rack r1 : List Letter}
    (hr : remove_first rack t = some r1) :
    needed_sum (t :: ts) rack = needed_sum ts r1 := by
  have hc := remove_first_counts hr
  have hpt : ∀ l : Letter,
      (t :: ts).count l - rack.count l = ts.count l - r1.count l := by
    intro l
    by_cases hl : l = t
    · subst hl
      have h1 := hc.1
      simp only [List.count_cons_self]
      omega
    · rw [List.count_cons_of_ne hl, hc.2 l hl]
  unfold needed_sum
  by_cases hm : t ∈ ts
  · rw [List.dedup_cons_of_mem hm]
    exact map_sum_congr (fun l _ => hpt l)
  · rw [List.dedup_cons_of_not_mem hm]
    simp only [List.map_cons, List.sum_cons]
    rw [map_sum_congr (fun l _ => hpt l)]
    have h0 : (t :: ts).count t - rack.count t = 0 := by
      have h1 := hc.1
      simp only [List.count_cons_self, List.count_eq_zero_of_not_mem hm]
      omega
    omega

theorem needed_sum_cons_missing {t : Letter} {ts rack : List Letter}
    (h0 : rack.count t = 0) :
    needed_sum (t :: ts) rack = needed_sum ts rack + 1 := by
  unfold needed_sum
  have hpt : ∀ l, l ≠ t →
      (t :: ts).count l - rack.count l = ts.count l - rack.count l := by
    intro l hl
    rw [List.count_cons_of_ne hl]
  have hbump : (t :: ts).count t - rack.count t
      = (ts.count t - rack.count t) + 1 := by
    simp only [List.count_cons_self, h0]
    omega
  by_cases hm : t ∈ ts
  · rw [List.dedup_cons_of_mem hm]
    exact sum_map_bump (List.nodup_dedup ts) (List.mem_dedup.mpr hm) hbump hpt
  · rw [List.dedup_cons_of_not_mem hm]
    simp only [List.map_cons, List.sum_cons]
    rw [map_sum_congr (fun l hl =>
      hpt l (fun he => hm (he ▸ List.mem_dedup.mp hl)))]
    have h1 : (t :: ts).count t - rack.count t = 1 := by
      simp only [List.count_cons_self, h0, List.count_eq_zero_of_not_mem hm]
    omega

theorem greedy_iff_needed :
    ∀ (ts rack : List Letter), (∀ t ∈ ts, t ≠ Letter.Blank) →
    (greedy_spec rack ts = true ↔
      needed_sum ts rack ≤ rack.count Letter.Blank) := by
  intro ts
  induction ts with
  | nil =>
    intro rack hnb
    simp [greedy_spec, needed_sum]
  | cons t ts ih =>
    intro rack hnb
    have htb : t ≠ Letter.Blank := hnb t (by simp)
    have hnb2 : ∀ u ∈ ts, u ≠ Letter.Blank := fun u hu => hnb u (by simp [hu])
    simp only [greedy_spec]
    cases hr : remove_first rack t with
    | some r1 =>
      rw [needed_sum_cons_consume hr]
      have hblank : r1.count Letter.Blank = rack.count Letter.Blank :=
        (remove_first_counts hr).2 Letter.Blank (Ne.symm htb)
      rw [← hblank]
      exact ih r1 hnb2
    | none =>
      have h0 : rack.count t = 0 := remove_first_none.mp hr
      rw [needed_sum_cons_missing h0]
      cases hrb : remove_first rack Letter.Blank with
      | some rB =>
        have hcB := remove_first_counts hrb
        have hothers : needed_sum ts rB = needed_sum ts rack := by
          unfold needed_sum
          exact map_sum_congr (fun l hl => by
            rw [hcB.2 l (hnb2 l (List.mem_dedup.mp hl))])
        have hB := hcB.1
        rw [ih rB hnb2, hothers]
        omega
      | none =>
        have hzB : rack.count Letter.Blank = 0 := remove_first_none.mp hrb
        simp [hzB]

/-- C10: for a word of uppercase letters (given with its letter values),
can_create_word returns true exactly when the arithmetic multiset
condition holds: the sum over each distinct letter of the word of
max(0, occurrences in the word minus occurrences in the rack) is at most
the number of blank tiles in the rack.  In particular the result depends
only on tile counts, not on the order of tiles in the rack. -/
theorem c10_greedy_decides_multiset_coverability (rack : List Letter)
    (cs : List Char) (ts : List Letter)
    (hf : List.Forall₂ (fun c t => Letter.from_char c = some t) cs ts)
    (hnb : ∀ t ∈ ts, t ≠ Letter.Blank) :
    (can_create_word rack cs = some true ↔
      needed_sum ts rack ≤ rack.count Letter.Blank) := by
  rw [can_create_word_eq_greedy hf hnb rack]
  rw [← greedy_iff_needed ts rack hnb]
  simp

theorem c10_greedy_decides_multiset_coverability_witness :
    List.Forall₂ (fun c t => Letter.from_char c = some t) ['A', 'A', 'B']
      [Letter.A, Letter.A, Letter.B] ∧
    (∀ t ∈ [Letter.A, Letter.A, Letter.B], t ≠ Letter.Blank) ∧
    (can_create_word [Letter.B, Letter.Blank, Letter.A] ['A', 'A', 'B'] =
        some true ↔
      needed_sum [Letter.A, Letter.A, Letter.B]
          [Letter.B, Letter.Blank, Letter.A] ≤
        [Letter.B, Letter.Blank, Letter.A].count Letter.Blank) :=
  ⟨by repeat constructor, by decide,
    c10_greedy_decides_multiset_coverability
      [Letter.B, Letter.Blank, Letter.A] ['A', 'A', 'B']
      [Letter.A, Letter.A, Letter.B] (by repeat constructor) (by decide)⟩

theorem verify_letters_true_facts (board : Board) (bm : Word)
    (wl : List (List Char)) :
    ∀ (rest : List Char) (k : Nat),
    verify_letters board bm wl k rest = some true →
    ∀ j, j < rest.length →
    ∃ loc, bm.position.add_direction bm.direction ((k + j : Nat) : Int) =
        some loc ∧
      (∀ t, board.get loc = some t →
        ∃ c l, rest.get? j = some c ∧ Letter.from_char c = some l ∧ t = l) ∧
      ∃ nw, find_boundary_word board bm (k + j) bm.direction.opposite =
          some nw ∧
        (nw.word = [] ∨ nw.word ∈ wl ∨ nw.word ∈ board.moves.map Word.word) := by
  intro rest
  induction rest with
  | nil =>
    intro k h j hj
    exact absurd hj (Nat.not_lt_zero j)
  | cons c rest ih =>
    intro k h j hj
    simp only [verify_letters] at h
    split at h
    · exact Option.noConfusion h
    · next loc hloc =>
      split at h
      · exact Option.noConfusion h
      · simp at h
      · next hconf =>
        split at h
        · exact Option.noConfusion h
        · next nw hnw =>
          split at h
          · simp at h
          · next hcond =>
            have hdisj : nw.word = [] ∨ nw.word ∈ wl ∨
                nw.word ∈ board.moves.map Word.word := by
              by_cases h1 : nw.word = []
              · exact Or.inl h1
              · by_cases h2 : nw.word ∈ wl ∨ nw.word ∈ board.moves.map Word.word
                · exact Or.inr h2
                · exact absurd ⟨h1, h2⟩ hcond
            have hconflict : ∀ t, board.get loc = some t →
                ∃ c2 l, (c :: rest).get? 0 = some c2 ∧
                  Letter.from_char c2 = some l ∧ t = l := by
              intro t hget
              rw [hget] at hconf
              cases hfc : Letter.from_char c with
              | none => rw [hfc] at hconf; exact Option.noConfusion hconf
              | some l =>
                rw [hfc] at hconf
                have : decide (t ≠ l) = false := by
                  have := Option.some.inj hconf
                  exact this
                have htl : t = l := by
                  simpa using this
                exact ⟨c, l, rfl, hfc, htl⟩
            cases j with
            | zero =>
              refine ⟨loc, ?_, hconflict, nw, ?_, hdisj⟩
              · rw [Nat.add_zero]; exact hloc
              · rw [Nat.add_zero]; exact hnw
            | succ j2 =>
              have hj2 : j2 < rest.length := by
                simpa using hj
              have hfacts := ih (k + 1) h j2 hj2
              obtain ⟨loc2, hl2, hc2, nw2, hn2, hd2⟩ := hfacts
              have harith : k + 1 + j2 = k + (j2 + 1) := by omega
              rw [harith] at hl2 hn2
              exact ⟨loc2, hl2, by simpa using hc2, nw2, hn2, hd2⟩

/-- C4 (amended): if some letter of the candidate lies on a perpendicular
contiguous run (per the overlay-aware boundary scan) of length greater
than one that is neither a lexicon word nor a committed-move word, then
verify_move never returns true — it returns false, or panics when another
boundary scan of the same candidate runs off the grid's top or left edge
through occupied squares. -/
theorem c4_bad_cross_word_never_accepted (board : Board) (bm : Word)
    (wl : List (List Char)) (i : Nat) (bw : Word)
    (hfb : find_boundary_word board bm i bm.direction.opposite = some bw)
    (hlen : 2 ≤ bw.word.length)
    (hwl : bw.word ∉ wl)
    (hhist : bw.word ∉ board.moves.map Word.word)
    (hi : i < bm.word.length) :
    verify_move board bm wl ≠ some true := by
  intro h
  simp only [verify_move] at h
  split at h
  · exact Option.noConfusion h
  · simp at h
  · split at h
    · exact Option.noConfusion h
    · split at h
      · simp at h
      · have hfacts := verify_letters_true_facts board bm wl bm.word 0 h i hi
        obtain ⟨loc, _, _, nw, hnw, hdisj⟩ := hfacts
        rw [Nat.zero_add, hfb] at hnw
        have hbw : nw = bw := (Option.some.inj hnw).symm ▸ rfl
        rw [← hbw] at hlen hwl hhist
        cases hdisj with
        | inl h1 =>
          rw [h1] at hlen
          exact absurd hlen (by simp)
        | inr h2 =>
          cases h2 with
          | inl h3 => exact hwl h3
          | inr h4 => exact hhist h4

theorem c4_bad_cross_word_never_accepted_witness :
    find_boundary_word rust_board rust_cand 0 rust_cand.direction.opposite =
      some rust_cross ∧
    2 ≤ rust_cross.word.length ∧
    rust_cross.word ∉ rust_lex ∧
    rust_cross.word ∉ rust_board.moves.map Word.word ∧
    0 < rust_cand.word.length ∧
    verify_move rust_board rust_cand rust_lex ≠ some true :=
  ⟨by decide, by decide, by decide, by decide, by decide,
    c4_bad_cross_word_never_accepted rust_board rust_cand rust_lex 0
      rust_cross (by decide) (by decide) (by decide) (by decide) (by decide)⟩

/-- C4 counterexample: the claim as stated — such a candidate makes
verify_move return false — fails: on zk_board the candidate AB Down at
index 6 has a bad perpendicular run BK at its second letter, yet
verify_move panics (modeled none) rather than returning false, because
the same-direction extension scan walks upward from row 1 through the
occupied Z at row 0 and underflows the index. -/
theorem c4_counterexample_panics_instead_of_false :
    find_boundary_word zk_board zk_cand 1 zk_cand.direction.opposite =
      some zk_cross ∧
    2 ≤ zk_cross.word.length ∧
    zk_cross.word ∉ zk_lex ∧
    zk_cross.word ∉ zk_board.moves.map Word.word ∧
    1 < zk_cand.word.length ∧
    verify_move zk_board zk_cand zk_lex = none ∧
    verify_move zk_board zk_cand zk_lex ≠ some false := by decide

theorem mon_filter_sublist {α : Type _} (f : α → Option Bool) :
    ∀ (l r : List α), mon_filter f l = some r → r.Sublist l
  | [], r => by
    intro h
    simp only [mon_filter, Option.some.injEq] at h
    subst h
    exact List.Sublist.refl []
  | x :: xs, r => by
    intro h
    simp only [mon_filter] at h
    split at h
    · exact Option.noConfusion h
    · next keep hkeep =>
      cases hm : mon_filter f xs with
      | none => rw [hm] at h; exact Option.noConfusion h
      | some r2 =>
        rw [hm] at h
        simp only [Option.map_some', Option.some.injEq] at h
        subst h
        have hsub := mon_filter_sublist f xs r2 hm
        cases keep with
        | true => simpa using hsub.cons₂ x
        | false => simpa using hsub.cons x

theorem mon_filter_mem {α : Type _} (f : α → Option Bool) :
    ∀ (l r : List α), mon_filter f l = some r → ∀ x ∈ r, f x = some true
  | [], r => by
    intro h x hx
    simp only [mon_filter, Option.some.injEq] at h
    subst h
    cases hx
  | y :: ys, r => by
    intro h x hx
    simp only [mon_filter] at h
    split at h
    · exact Option.noConfusion h
    · next keep hkeep =>
      cases hm : mon_filter f ys with
      | none => rw [hm] at h; exact Option.noConfusion h
      | some r2 =>
        rw [hm] at h
        simp only [Option.map_some', Option.some.injEq] at h
        subst h
        cases keep with
        | true =>
          cases List.mem_cons.mp hx with
          | inl he => subst he; exact hkeep
          | inr he => exact mon_filter_mem f ys r2 hm x he
        | false => exact mon_filter_mem f ys r2 hm x hx

theorem mapM_scores_facts (b : Board) :
    ∀ (ws : List Word) (l : List (Nat × Word)), mapM_scores b ws = some l →
    ∀ p ∈ l, Word.get_score p.2 b none = some p.1 ∧ p.2 ∈ ws
  | [], l => by
    intro h p hp
    simp only [mapM_scores, Option.some.injEq] at h
    subst h
    cases hp
  | w :: ws, l => by
    intro h p hp
    simp only [mapM_scores] at h
    split at h
    · exact Option.noConfusion h
    · next s hs =>
      cases hm : mapM_scores b ws with
      | none => rw [hm] at h; exact Option.noConfusion h
      | some r2 =>
        rw [hm] at h
        simp only [Option.map_some', Option.some.injEq] at h
        subst h
        cases List.mem_cons.mp hp with
        | inl he =>
          subst he
          exact ⟨hs, by simp⟩
        | inr he =>
          have := mapM_scores_facts b ws r2 hm p he
          exact ⟨this.1, by simp [this.2]⟩

theorem add_direction_board_size {p : Position} {d : Direction} {a : Int}
    {q : Position} (h : p.add_direction d a = some q) :
    q.board_size = p.board_size := by
  unfold Position.add_direction at h
  cases hc : checked_add_signed p.index ((d.offset p.board_size : Int) * a) with
  | none => rw [hc] at h; exact Option.noConfusion h
  | some n =>
    rw [hc] at h
    simp only [Option.map_some', Option.some.injEq] at h
    rw [← h]

theorem gmp_build_board_size (location : Position) (word : List Char)
    (direction : Direction) :
    ∀ (sps : List Nat) (l : List Word),
    gmp_build location word direction sps = some l →
    ∀ x ∈ l, x.position.board_size = location.board_size
  | [], l => by
    intro h x hx
    simp only [gmp_build, Option.some.injEq] at h
    subst h
    cases hx
  | sp :: rest, l => by
    intro h x hx
    simp only [gmp_build] at h
    split at h
    · exact Option.noConfusion h
    · next sq hsq =>
      cases hm : gmp_build location word direction rest with
      | none => rw [hm] at h; exact Option.noConfusion h
      | some r2 =>
        rw [hm] at h
        simp only [Option.map_some', Option.some.injEq] at h
        subst h
        cases List.mem_cons.mp hx with
        | inl he => subst he; exact add_direction_board_size hsq
        | inr he => exact gmp_build_board_size location word direction rest r2 hm x he

theorem get_move_positions_board_size (b : Board) (loc : Position)
    (word : List Char) (l : List Word)
    (h : get_move_positions b loc word = some l) :
    ∀ x ∈ l, x.position.board_size = loc.board_size := by
  intro x hx
  simp only [get_move_positions] at h
  split at h
  · exact Option.noConfusion h
  · next sps1 hsps1 =>
    split at h
    · exact Option.noConfusion h
    · next downs hdowns =>
      split at h
      · exact Option.noConfusion h
      · next sps2 hsps2 =>
        split at h
        · exact Option.noConfusion h
        · next rights hrights =>
          have he := Option.some.inj h
          subst he
          cases List.mem_append.mp hx with
          | inl hm => exact gmp_build_board_size loc word .Down sps1 downs hdowns x hm
          | inr hm => exact gmp_build_board_size loc word .Right sps2 rights hrights x hm

theorem words_candidates_facts (b : Board) (loc : Position) :
    ∀ (ws : List (List Char)) (l : List (Nat × Word)),
    words_candidates b loc ws = some l →
    ∀ p ∈ l, Word.get_score p.2 b none = some p.1 ∧
      p.2.position.board_size = loc.board_size
  | [], l => by
    intro h p hp
    simp only [words_candidates, Option.some.injEq] at h
    subst h
    cases hp
  | w :: ws, l => by
    intro h p hp
    simp only [words_candidates] at h
    split at h
    · exact Option.noConfusion h
    · next mps hmps =>
      split at h
      · exact Option.noConfusion h
      · next scored hscored =>
        cases hm : words_candidates b loc ws with
        | none => rw [hm] at h; exact Option.noConfusion h
        | some r2 =>
          rw [hm] at h
          simp only [Option.map_some', Option.some.injEq] at h
          subst h
          cases List.mem_append.mp hp with
          | inl hmem =>
            have hf := mapM_scores_facts b mps scored hscored p hmem
            exact ⟨hf.1, get_move_positions_board_size b loc w mps hmps p.2 hf.2⟩
          | inr hmem => exact words_candidates_facts b loc ws r2 hm p hmem

theorem collect_anchors_facts (b : Board) (rack : List Letter)
    (wl : List (List Char)) :
    ∀ (anchors : List (Position × Letter)) (l : List (Nat × Word)),
    collect_anchors b rack wl anchors = some l →
    (∀ a ∈ anchors, a.1.board_size = b.size) →
    ∀ p ∈ l, Word.get_score p.2 b none = some p.1 ∧
      p.2.position.board_size = b.size
  | [], l => by
    intro h _ p hp
    simp only [collect_anchors, Option.some.injEq] at h
    subst h
    cases hp
  | (loc, letter) :: rest, l => by
    intro h hanch p hp
    simp only [collect_anchors] at h
    split at h
    · exact Option.noConfusion h
    · next ws hws =>
      split at h
      · exact Option.noConfusion h
      · next cands hcands =>
        cases hm : collect_anchors b rack wl rest with
        | none => rw [hm] at h; exact Option.noConfusion h
        | some r2 =>
          rw [hm] at h
          simp only [Option.map_some', Option.some.injEq] at h
          subst h
          cases List.mem_append.mp hp with
          | inl hmem =>
            have hf := words_candidates_facts b loc ws cands hcands p hmem
            have hbs : loc.board_size = b.size := hanch (loc, letter) (by simp)
            exact ⟨hf.1, by rw [hf.2, hbs]⟩
          | inr hmem =>
            exact collect_anchors_facts b rack wl rest r2 hm
              (fun a ha => hanch a (by simp [ha])) p hmem

theorem enumerate_letters_board_size (b : Board) :
    ∀ a ∈ b.enumerate_letters, a.1.board_size = b.size := by
  intro a ha
  unfold Board.enumerate_letters at ha
  rw [List.mem_filterMap] at ha
  obtain ⟨x, _, hmap⟩ := ha
  cases hx2 : x.2 with
  | none => rw [hx2] at hmap; exact Option.noConfusion hmap
  | some y =>
    rw [hx2] at hmap
    simp only [Option.map_some', Option.some.injEq] at hmap
    rw [← hmap]

/-- C5: the sequence of words yielded by best_moves is non-increasing in
score for consecutive elements: every yielded word's primary score against
the board is at least that of the word yielded after it. -/
theorem c5_best_moves_scores_non_increasing (b : Board)
    (letters : List Letter) (wl : List (List Char)) (ws : List Word)
    (h : best_moves b letters wl = some ws) :
    List.Chain' (fun w1 w2 => ∀ s1 s2, Word.get_score w1 b none = some s1 →
      Word.get_score w2 b none = some s2 → s2 ≤ s1) ws := by
  simp only [best_moves] at h
  split at h
  · exact Option.noConfusion h
  · next best hbest =>
    cases hf : mon_filter (fun m => verify_move b m.2 wl)
        (List.insertionSort keyLE best).reverse with
    | none => rw [hf] at h; exact Option.noConfusion h
    | some kept =>
      rw [hf] at h
      simp only [Option.map_some', Option.some.injEq] at h
      subst h
      have hsorted : List.Sorted keyLE (List.insertionSort keyLE best) :=
        List.sorted_insertionSort keyLE best
      have hrev : (List.insertionSort keyLE best).reverse.Pairwise
          (fun a c => keyLE c a) := List.pairwise_reverse.mpr hsorted
      have hsub := mon_filter_sublist _ _ _ hf
      have hkept : kept.Pairwise (fun a c => keyLE c a) :=
        hrev.sublist hsub
      have hscores : ∀ p ∈ kept, Word.get_score p.2 b none = some p.1 := by
        intro p hp
        have hp2 : p ∈ (List.insertionSort keyLE best).reverse :=
          hsub.subset hp
        rw [List.mem_reverse] at hp2
        have hp3 : p ∈ best := (List.perm_insertionSort keyLE best).subset hp2
        exact (collect_anchors_facts b letters wl _ best hbest
          (enumerate_letters_board_size b) p hp3).1
      have hpair : kept.Pairwise (fun p q : Nat × Word =>
          ∀ s1 s2, Word.get_score p.2 b none = some s1 →
            Word.get_score q.2 b none = some s2 → s2 ≤ s1) := by
        refine hkept.imp_of_mem ?_
        intro p q hp hq hle s1 s2 h1 h2
        rw [hscores p hp] at h1
        rw [hscores q hq] at h2
        have e1 := Option.some.inj h1
        have e2 := Option.some.inj h2
        have : q.1 ≤ p.1 := hle
        omega
      exact (List.pairwise_map.mpr hpair).chain'

theorem c5_best_moves_scores_non_increasing_witness :
    best_moves b4 [Letter.B] [['A', 'B']] = some b4_out ∧
    List.Chain' (fun w1 w2 => ∀ s1 s2, Word.get_score w1 b4 none = some s1 →
      Word.get_score w2 b4 none = some s2 → s2 ≤ s1) b4_out :=
  ⟨by decide, c5_best_moves_scores_non_increasing b4 [Letter.B] [['A', 'B']]
    b4_out (by decide)⟩

theorem find_boundary_word_zero_none (b : Board) (bm : Word)
    (hs : b.size = 0) (hp : bm.position.board_size = 0)
    (hidx : bm.position.index = 0) :
    find_boundary_word b bm 0 bm.direction = none := by
  obtain ⟨⟨pi, bs⟩, d, cs⟩ := bm
  simp only at hp hidx
  subst hp
  subst hidx
  unfold find_boundary_word
  rw [add_direction_nat]
  simp only [Nat.mul_zero, Nat.add_zero]
  cases d with
  | Right =>
    have h1 : (Position.mk 0 0).try_add_direction .Right (-1) = none :=
      try_add_neg_one_underflow 0 0 .Right (by simp [Direction.offset])
    simp [scan_loop, h1]
  | Down =>
    have h1 : (Position.mk 0 0).try_add_direction .Down (-1) =
        some (some ⟨0, 0⟩) := by
      rw [try_add_neg_one 0 0 .Down (by simp [Direction.offset])]
      simp [Direction.offset]
    have h2 : get_with_word b ⟨⟨0, 0⟩, .Down, cs⟩ ⟨0, 0⟩ = none := by
      simp [get_with_word, hs, Direction.offset]
    simp [scan_loop, h1, h2]

theorem try_add_some_some_facts {p : Position} {d : Direction} {k : Nat}
    {q : Position} (h : p.try_add_direction d (k : Int) = some (some q)) :
    p.index + d.offset p.board_size * k ≤ p.board_size * p.board_size ∧
    (d = .Right → ¬ p.board_size = 0 ∧
      p.index / p.board_size = (p.index + k) / p.board_size) := by
  rw [try_add_nat] at h
  split at h
  · exact Option.noConfusion (Option.some.inj h)
  · next hgt =>
    split at h
    · next hd =>
      subst hd
      split at h
      · exact Option.noConfusion h
      · next hs0 =>
        split at h
        · exact Option.noConfusion (Option.some.inj h)
        · next hrow =>
          have hrow2 := not_not.mp hrow
          simp only [Direction.offset] at hgt hrow2 ⊢
          refine ⟨by omega, fun _ => ⟨hs0, ?_⟩⟩
          rw [hrow2]
          rw [Nat.one_mul]
    · next hd =>
      exact ⟨by omega, fun hcontra => absurd hcontra hd⟩

theorem verify_move_true_letter_facts (b : Board) (w : Word)
    (wl : List (List Char)) (hbs : w.position.board_size = b.size)
    (hver : verify_move b w wl = some true) :
    ∀ i, i < w.word.length →
      w.position.index + w.direction.offset b.size * i < b.size * b.size ∧
      (w.direction = .Right →
        (w.position.index + i) / b.size = w.position.index / b.size) ∧
      (∀ t, b.get ⟨w.position.index + w.direction.offset b.size * i,
          w.position.board_size⟩ = some t →
        ∃ c l, w.word.get? i = some c ∧ Letter.from_char c = some l ∧
          t = l) := by
  intro i hi
  simp only [verify_move] at hver
  split at hver
  · exact Option.noConfusion hver
  · simp at hver
  · next q hq =>
    split at hver
    · exact Option.noConfusion hver
    · next nw hnw =>
      split at hver
      · simp at hver
      · have hta := try_add_some_some_facts hq
        by_cases hsz : b.size = 0
        · -- a zero-size board: the extension scan must have panicked
          have hbs0 : w.position.board_size = 0 := by rw [hbs, hsz]
          have hidx0 : w.position.index = 0 := by
            have h1 := hta.1
            rw [hbs0] at h1
            simp at h1
            omega
          rw [find_boundary_word_zero_none b w hsz hbs0 hidx0] at hnw
          exact Option.noConfusion hnw
        · have hoff1 : 1 ≤ w.direction.offset b.size := by
            cases hd : w.direction with
            | Right => simp [Direction.offset]
            | Down => simp [Direction.offset]; omega
          have hlenb : w.position.index +
              w.direction.offset b.size * w.word.length ≤
              b.size * b.size := by
            have h1 := hta.1
            rw [hbs] at h1
            exact h1
          have hmono : w.direction.offset b.size * (i + 1) ≤
              w.direction.offset b.size * w.word.length :=
            Nat.mul_le_mul_left _ hi
          have hstep : w.direction.offset b.size * (i + 1) =
              w.direction.offset b.size * i + w.direction.offset b.size := by
            ring
          refine ⟨by omega, ?_, ?_⟩
          · intro hd
            have hrow := (hta.2 hd).2
            rw [hbs] at hrow
            have hd1 : w.direction.offset b.size = 1 := by
              rw [hd]; rfl
            rw [hd1] at hlenb
            have hle1 : w.position.index / b.size ≤
                (w.position.index + i) / b.size :=
              Nat.div_le_div_right (by omega)
            have hle2 : (w.position.index + i) / b.size ≤
                (w.position.index + w.word.length) / b.size :=
              Nat.div_le_div_right (by omega)
            omega
          · intro t hget
            have hfacts := verify_letters_true_facts b w wl w.word 0 hver i hi
            obtain ⟨loc, hloc, hconf, _⟩ := hfacts
            rw [Nat.zero_add, add_direction_nat] at hloc
            have hloceq : loc = ⟨w.position.index +
                w.direction.offset w.position.board_size * i,
                w.position.board_size⟩ := (Option.some.inj hloc).symm
            have : loc = ⟨w.position.index +
                w.direction.offset b.size * i, w.position.board_size⟩ := by
              rw [hloceq, hbs]
            exact hconf t (by rw [this]; exact hget)

/-- C6: every word yielded by best_moves passes the Validator
(verify_move returns true for it against the same board and lexicon), its
position carries the board's size, and consequently each of its letters
lands on an in-bounds square (index under size², with no row wrap for a
Right-directed word), and wherever the board already holds a tile that
tile equals the word's letter there. -/
theorem c6_best_moves_pass_validator (b : Board) (letters : List Letter)
    (wl : List (List Char)) (ws : List Word) (w : Word)
    (h : best_moves b letters wl = some ws) (hw : w ∈ ws) :
    verify_move b w wl = some true ∧
    w.position.board_size = b.size ∧
    ∀ i, i < w.word.length →
      w.position.index + w.direction.offset b.size * i < b.size * b.size ∧
      (w.direction = .Right →
        (w.position.index + i) / b.size = w.position.index / b.size) ∧
      (∀ t, b.get ⟨w.position.index + w.direction.offset b.size * i,
          w.position.board_size⟩ = some t →
        ∃ c l, w.word.get? i = some c ∧ Letter.from_char c = some l ∧
          t = l) := by
  simp only [best_moves] at h
  split at h
  · exact Option.noConfusion h
  · next best hbest =>
    cases hf : mon_filter (fun m => verify_move b m.2 wl)
        (List.insertionSort keyLE best).reverse with
    | none => rw [hf] at h; exact Option.noConfusion h
    | some kept =>
      rw [hf] at h
      simp only [Option.map_some', Option.some.injEq] at h
      subst h
      obtain ⟨p, hpkept, hpw⟩ := List.mem_map.mp hw
      have hver : verify_move b p.2 wl = some true :=
        mon_filter_mem _ _ _ hf p hpkept
      have hbs : p.2.position.board_size = b.size := by
        have hp2 : p ∈ (List.insertionSort keyLE best).reverse :=
          (mon_filter_sublist _ _ _ hf).subset hpkept
        rw [List.mem_reverse] at hp2
        have hp3 : p ∈ best := (List.perm_insertionSort keyLE best).subset hp2
        exact (collect_anchors_facts b letters wl _ best hbest
          (enumerate_letters_board_size b) p hp3).2
      subst hpw
      exact ⟨hver, hbs, verify_move_true_letter_facts b p.2 wl hbs hver⟩

theorem c6_best_moves_pass_validator_witness :
    best_moves b4 [Letter.B] [['A', 'B']] = some b4_out ∧
    Word.mk ⟨5, 4⟩ .Right ['A', 'B'] ∈ b4_out ∧
    (verify_move b4 (Word.mk ⟨5, 4⟩ .Right ['A', 'B']) [['A', 'B']] =
        some true ∧
      (Word.mk ⟨5, 4⟩ .Right ['A', 'B']).position.board_size = b4.size ∧
      ∀ i, i < (Word.mk ⟨5, 4⟩ .Right ['A', 'B']).word.length →
        (Word.mk ⟨5, 4⟩ .Right ['A', 'B']).position.index +
            (Word.mk ⟨5, 4⟩ .Right ['A', 'B']).direction.offset b4.size * i <
          b4.size * b4.size ∧
        ((Word.mk ⟨5, 4⟩ .Right ['A', 'B']).direction = .Right →
          ((Word.mk ⟨5, 4⟩ .Right ['A', 'B']).position.index + i) / b4.size =
            (Word.mk ⟨5, 4⟩ .Right ['A', 'B']).position.index / b4.size) ∧
        (∀ t, b4.get ⟨(Word.mk ⟨5, 4⟩ .Right ['A', 'B']).position.index +
            (Word.mk ⟨5, 4⟩ .Right ['A', 'B']).direction.offset b4.size * i,
            (Word.mk ⟨5, 4⟩ .Right ['A', 'B']).position.board_size⟩ =
              some t →
          ∃ c l, (Word.mk ⟨5, 4⟩ .Right ['A', 'B']).word.get? i = some c ∧
            Letter.from_char c = some l ∧ t = l)) :=
  ⟨by decide, by decide,
    c6_best_moves_pass_validator b4 [Letter.B] [['A', 'B']] b4_out
      (Word.mk ⟨5, 4⟩ .Right ['A', 'B']) (by decide) (by decide)⟩

theorem obind_some {α β : Type _} (a : α) (f : α → Option β) :
    (some a).bind f = f a := rfl

theorem add_direction_one (p : Position) (d : Direction) :
    p.add_direction d 1 =
      some ⟨p.index + d.offset p.board_size, p.board_size⟩ := by
  have h := add_direction_nat p d 1
  rw [Nat.mul_one] at h
  rw [show ((1 : Nat) : Int) = (1 : Int) from by norm_cast] at h
  exact h

theorem try_add_one_nat (p : Position) (d : Direction) :
    p.try_add_direction d 1 =
      (if p.index + d.offset p.board_size > p.board_size * p.board_size then
        some none
      else if d = .Right then
        if p.board_size = 0 then none
        else if p.index / p.board_size ≠
            (p.index + d.offset p.board_size) / p.board_size then some none
        else some (some ⟨p.index + d.offset p.board_size, p.board_size⟩)
      else some (some ⟨p.index + d.offset p.board_size, p.board_size⟩)) := by
  have h := try_add_nat p d 1
  rw [Nat.mul_one] at h
  rw [show ((1 : Nat) : Int) = (1 : Int) from by norm_cast] at h
  exact h

theorem set_facts {b : Board} {p : Position} {l : Option Letter} {b2 : Board}
    (h : b.set p l = some b2) :
    p.index < b.inner.length ∧ b2.size = b.size ∧ b2.moves = b.moves ∧
    b2.inner = b.inner.set p.index l := by
  unfold Board.set at h
  split at h
  · next hlt =>
    have he := Option.some.inj h
    subst he
    exact ⟨hlt, rfl, rfl, rfl⟩
  · exact Option.noConfusion h

theorem make_move_go_cells (d : Direction) :
    ∀ (cs : List Char) (b : Board) (pos : Position) (b1 : Board),
    make_move_go b pos d cs = some b1 →
    1 ≤ d.offset pos.board_size →
    b1.size = b.size ∧ b1.inner.length = b.inner.length ∧
    (∀ q : Nat, (∀ k, k < cs.length →
        q ≠ pos.index + d.offset pos.board_size * k) →
      b1.inner.get? q = b.inner.get? q) ∧
    (∀ k, k < cs.length → ∃ c l, cs.get? k = some c ∧
      Letter.from_char c = some l ∧
      b1.inner.get? (pos.index + d.offset pos.board_size * k) =
        some (some l))
  | [], b, pos, b1 => by
    intro h _
    simp only [make_move_go, Option.some.injEq] at h
    subst h
    refine ⟨rfl, rfl, fun q _ => rfl, fun k hk => absurd hk (by simp)⟩
  | c :: cs, b, pos, b1 => by
    intro h hoff
    simp only [make_move_go] at h
    split at h
    · exact Option.noConfusion h
    · next l hl =>
      split at h
      · exact Option.noConfusion h
      · next b2 hb2 =>
        split at h
        · exact Option.noConfusion h
        · next pos2 hpos2 =>
          have hset := set_facts hb2
          rw [add_direction_one] at hpos2
          have hpos2v := (Option.some.inj hpos2).symm
          have hbs2 : pos2.board_size = pos.board_size := by
            rw [hpos2v]
          have hidx2 : pos2.index = pos.index + d.offset pos.board_size := by
            rw [hpos2v]
          have hoff2 : 1 ≤ d.offset pos2.board_size := by rw [hbs2]; exact hoff
          have ih := make_move_go_cells d cs b2 pos2 b1 h hoff2
          have hlen2 : b2.inner.length = b.inner.length := by
            rw [hset.2.2.2, List.length_set]
          refine ⟨ih.1.trans hset.2.1, ih.2.1.trans hlen2, ?_, ?_⟩
          · intro q hq
            have hq0 : q ≠ pos.index := by
              have := hq 0 (by simp)
              simpa using this
            have hqrest : ∀ k, k < cs.length →
                q ≠ pos2.index + d.offset pos2.board_size * k := by
              intro k hk
              rw [hidx2, hbs2]
              have := hq (k + 1) (by simpa using Nat.succ_lt_succ hk)
              intro he
              apply this
              rw [he]
              ring
            rw [ih.2.2.1 q hqrest, hset.2.2.2,
              List.get?_set_ne (some l) b.inner (Ne.symm hq0)]
          · intro k hk
            cases k with
            | zero =>
              refine ⟨c, l, rfl, hl, ?_⟩
              have hq0 : ∀ k2, k2 < cs.length →
                  pos.index ≠ pos2.index + d.offset pos2.board_size * k2 := by
                intro k2 _
                rw [hidx2, hbs2]
                intro he
                omega
              rw [Nat.mul_zero, Nat.add_zero, ih.2.2.1 pos.index hq0,
                hset.2.2.2]
              have hlt : pos.index < b.inner.length := hset.1
              rw [List.get?_set_eq]
              cases hbg : b.inner.get? pos.index with
              | none =>
                rw [List.get?_eq_none] at hbg
                omega
              | some z => rfl
            | succ k2 =>
              have hk2 : k2 < cs.length := by simpa using hk
              obtain ⟨c2, l2, hc2, hl2, hcell⟩ := ih.2.2.2 k2 hk2
              refine ⟨c2, l2, by simpa using hc2, hl2, ?_⟩
              rw [hidx2, hbs2] at hcell
              have harith : pos.index + d.offset pos.board_size +
                  d.offset pos.board_size * k2 =
                  pos.index + d.offset pos.board_size * (k2 + 1) := by ring
              rw [harith] at hcell
              exact hcell

theorem make_move_board_facts {b : Board} {p : Position} {cs : List Char}
    {d : Direction} {b1 : Board} (h : b.make_move p cs d = some b1)
    (hoff : 1 ≤ d.offset p.board_size) :
    b1.size = b.size ∧ b1.inner.length = b.inner.length ∧
    (∀ q : Nat, (∀ k, k < cs.length →
        q ≠ p.index + d.offset p.board_size * k) →
      b1.inner.get? q = b.inner.get? q) ∧
    (∀ k, k < cs.length → ∃ c l, cs.get? k = some c ∧
      Letter.from_char c = some l ∧
      b1.inner.get? (p.index + d.offset p.board_size * k) = some (some l)) := by
  unfold Board.make_move at h
  cases hg : make_move_go b p d cs with
  | none => rw [hg] at h; exact Option.noConfusion h
  | some b2 =>
    rw [hg] at h
    simp only [Option.map_some', Option.some.injEq] at h
    have hf := make_move_go_cells d cs b p b2 hg hoff
    rw [← h]
    exact hf

theorem board_get_def (b : Board) (q s : Nat) :
    b.get ⟨q, s⟩ = (b.inner.get? q).join := rfl

theorem get_with_word_low (b1 : Board) (w : Word) (q : Position)
    (hq : q.index < w.position.index) :
    get_with_word b1 w q = some (b1.get q) := by
  unfold get_with_word
  rw [if_neg (by omega)]

theorem get_with_word_hit (b1 : Board) (s pi : Nat) (d : Direction)
    (cs : List Char) (c : Char) (k : Nat)
    (hsz : b1.size = s) (hoff : 1 ≤ d.offset s)
    (hk : k < cs.length) (hc : cs.get? k = some c) :
    get_with_word b1 (Word.mk ⟨pi, s⟩ d cs) ⟨pi + d.offset s * k, s⟩ =
      (Letter.from_char c).map some := by
  have h1 : pi ≤ pi + d.offset s * k := Nat.le_add_right _ _
  have h2 : ¬ d.offset s = 0 := by omega
  have h3 : pi + d.offset s * k - pi = d.offset s * k := by omega
  have h4 : d.offset s * k % d.offset s = 0 := Nat.mul_mod_right _ _
  have h5 : d.offset s * k / d.offset s = k := Nat.mul_div_cancel_left k (by omega)
  have hc2 : cs[k] = c := by
    rw [List.get?_eq_getElem?] at hc
    exact (List.getElem?_eq_some.mp hc).2
  simp [get_with_word, hsz, h1, h2, h3, h4, h5, hk, hc, hc2]

theorem get_with_word_past (b1 : Board) (s pi : Nat) (d : Direction)
    (cs : List Char) (m : Nat) (hsz : b1.size = s) (hoff : 1 ≤ d.offset s)
    (hm : cs.length ≤ m) :
    get_with_word b1 (Word.mk ⟨pi, s⟩ d cs) ⟨pi + d.offset s * m, s⟩ =
      some (b1.get ⟨pi + d.offset s * m, s⟩) := by
  have h1 : pi ≤ pi + d.offset s * m := Nat.le_add_right _ _
  have h2 : ¬ d.offset s = 0 := by omega
  have h3 : pi + d.offset s * m - pi = d.offset s * m := by omega
  have h4 : d.offset s * m % d.offset s = 0 := Nat.mul_mod_right _ _
  have h5 : d.offset s * m / d.offset s = m := Nat.mul_div_cancel_left m (by omega)
  have h6 : ¬ m < cs.length := by omega
  simp [get_with_word, hsz, h1, h2, h3, h4, h5, h6]

theorem scan_loop_step_panic (b : Board) (w : Word) (dir : Direction)
    (delta : Int) (fuel : Nat) (bound : Position)
    (h : bound.try_add_direction dir delta = none) :
    scan_loop b w dir delta (fuel + 1) bound = none := by
  simp only [scan_loop]
  rw [h]

theorem scan_loop_step_edge (b : Board) (w : Word) (dir : Direction)
    (delta : Int) (fuel : Nat) (bound : Position)
    (h : bound.try_add_direction dir delta = some none) :
    scan_loop b w dir delta (fuel + 1) bound = some bound := by
  simp only [scan_loop]
  rw [h]

theorem scan_loop_step_stop (b : Board) (w : Word) (dir : Direction)
    (delta : Int) (fuel : Nat) (bound nxt : Position)
    (h1 : bound.try_add_direction dir delta = some (some nxt))
    (h2 : get_with_word b w nxt = some none) :
    scan_loop b w dir delta (fuel + 1) bound = some bound := by
  simp only [scan_loop]
  rw [h1]
  show (match get_with_word b w nxt with
    | none => none
    | some none => some bound
    | some (some _) => scan_loop b w dir delta fuel nxt) = some bound
  rw [h2]

theorem scan_loop_step_go (b : Board) (w : Word) (dir : Direction)
    (delta : Int) (fuel : Nat) (bound nxt : Position) (l : Letter)
    (h1 : bound.try_add_direction dir delta = some (some nxt))
    (h2 : get_with_word b w nxt = some (some l)) :
    scan_loop b w dir delta (fuel + 1) bound =
      scan_loop b w dir delta fuel nxt := by
  simp only [scan_loop]
  rw [h1]
  show (match get_with_word b w nxt with
    | none => none
    | some none => some bound
    | some (some _) => scan_loop b w dir delta fuel nxt) =
    scan_loop b w dir delta fuel nxt
  rw [h2]

theorem read_go_step_stop (b : Board) (w : Word) (dir : Direction)
    (endIdx fuel : Nat) (i : Position) (h : ¬ i.index ≤ endIdx) :
    read_go b w dir endIdx (fuel + 1) i = some [] := by
  simp only [read_go]
  rw [if_neg h]

theorem read_go_step_cons (b : Board) (w : Word) (dir : Direction)
    (endIdx fuel : Nat) (i i2 : Position) (l : Letter)
    (hle : i.index ≤ endIdx)
    (hg : get_with_word b w i = some (some l))
    (hn : i.add_direction dir 1 = some i2) :
    read_go b w dir endIdx (fuel + 1) i =
      (read_go b w dir endIdx fuel i2).map fun r => l.to_char :: r := by
  simp only [read_go]
  rw [if_pos hle]
  show (match get_with_word b w i with
    | none => none
    | some none => none
    | some (some l2) =>
      match i.add_direction dir 1 with
      | none => none
      | some i1 => (read_go b w dir endIdx fuel i1).map fun r =>
          l2.to_char :: r) =
    (read_go b w dir endIdx fuel i2).map fun r => l.to_char :: r
  rw [hg]
  show (match i.add_direction dir 1 with
    | none => none
    | some i1 => (read_go b w dir endIdx fuel i1).map fun r =>
        l.to_char :: r) =
    (read_go b w dir endIdx fuel i2).map fun r => l.to_char :: r
  rw [hn]

theorem find_boundary_word_eval {b : Board} {w : Word} {woff : Nat}
    {dir : Direction} {start sb eb : Position} {out : List Char}
    (h0 : w.position.add_direction w.direction ((woff : Nat) : Int) =
      some start)
    (h1 : scan_loop b w dir (-1) (start.index + 1) start = some sb)
    (h2 : scan_loop b w dir 1 (b.size * b.size + 2) start = some eb)
    (h3 : ¬ sb = eb)
    (h4 : read_go b w dir eb.index (b.size * b.size + 2) sb = some out) :
    find_boundary_word b w woff dir = some (Word.mk sb dir out) := by
  simp only [find_boundary_word, h0, obind_some, h1, h2, h3, if_false, h4,
    Option.map_some']

theorem c8_backward (b1 : Board) (s pi : Nat) (d : Direction) (cs : List Char)
    (hoffle : d.offset s ≤ pi) (hoff1 : 1 ≤ d.offset s) (hpi : pi < s * s)
    (hbefore : b1.get ⟨pi - d.offset s, s⟩ = none) :
    scan_loop b1 (Word.mk ⟨pi, s⟩ d cs) d (-1) (pi + 1) ⟨pi, s⟩ =
      some ⟨pi, s⟩ := by
  have hs0 : ¬ s = 0 := by
    intro h
    rw [h] at hpi
    simp at hpi
  have hlow : get_with_word b1 (Word.mk ⟨pi, s⟩ d cs) ⟨pi - d.offset s, s⟩ =
      some (b1.get ⟨pi - d.offset s, s⟩) :=
    get_with_word_low _ _ _ (by simp; omega)
  have hta := try_add_neg_one pi s d hoffle
  rw [if_neg (by omega)] at hta
  cases d with
  | Right =>
    rw [if_pos rfl, if_neg hs0] at hta
    by_cases hrow : pi / s ≠ (pi - Direction.offset .Right s) / s
    · rw [if_pos hrow] at hta
      exact scan_loop_step_edge _ _ _ _ _ _ hta
    · rw [if_neg hrow] at hta
      refine scan_loop_step_stop _ _ _ _ _ _ _ hta ?_
      rw [hlow, hbefore]
  | Down =>
    rw [if_neg (by simp)] at hta
    refine scan_loop_step_stop _ _ _ _ _ _ _ hta ?_
    rw [hlow, hbefore]

theorem c8_forward (b1 : Board) (s pi : Nat) (d : Direction) (cs : List Char)
    (hsz : b1.size = s) (hoff1 : 1 ≤ d.offset s)
    (hchars : ∀ c ∈ cs, (Letter.from_char c).isSome)
    (hfit : pi + d.offset s * (cs.length - 1) < s * s)
    (hrow_in : d = .Right → ∀ k, k < cs.length → (pi + k) / s = pi / s)
    (hafter1 : s * s < pi + d.offset s * cs.length ∨
      b1.get ⟨pi + d.offset s * cs.length, s⟩ = none) :
    ∀ (r m fuel : Nat), m + r + 1 = cs.length → r + 2 ≤ fuel →
    scan_loop b1 (Word.mk ⟨pi, s⟩ d cs) d 1 fuel ⟨pi + d.offset s * m, s⟩ =
      some ⟨pi + d.offset s * (cs.length - 1), s⟩ := by
  have hs0 : ¬ s = 0 := by
    intro h
    rw [h] at hfit
    simp at hfit
  intro r
  induction r with
  | zero =>
    intro m fuel hm hfuel
    obtain ⟨f2, rfl⟩ : ∃ f2, fuel = f2 + 1 := ⟨fuel - 1, by omega⟩
    have hmval : m = cs.length - 1 := by omega
    have hta := try_add_one_nat ⟨pi + d.offset s * m, s⟩ d
    dsimp only at hta
    have hn : pi + d.offset s * m + d.offset s =
        pi + d.offset s * cs.length := by
      have h1 : m + 1 = cs.length := by omega
      calc pi + d.offset s * m + d.offset s
          = pi + d.offset s * (m + 1) := by ring
        _ = pi + d.offset s * cs.length := by rw [h1]
    rw [hn] at hta
    by_cases hbig : s * s < pi + d.offset s * cs.length
    · rw [if_pos hbig] at hta
      rw [hmval] at hta ⊢
      exact scan_loop_step_edge _ _ _ _ _ _ hta
    · rw [if_neg hbig] at hta
      have hafter2 : b1.get ⟨pi + d.offset s * cs.length, s⟩ = none := by
        cases hafter1 with
        | inl h => exact absurd h hbig
        | inr h => exact h
      cases d with
      | Right =>
        rw [if_pos rfl, if_neg hs0] at hta
        by_cases hrw : (pi + Direction.offset .Right s * m) / s ≠
            (pi + Direction.offset .Right s * cs.length) / s
        · rw [if_pos hrw] at hta
          rw [hmval] at hta ⊢
          exact scan_loop_step_edge _ _ _ _ _ _ hta
        · rw [if_neg hrw] at hta
          have hpast := get_with_word_past b1 s pi .Right cs cs.length hsz
            (by simp [Direction.offset]) (le_refl _)
          rw [hmval] at hta ⊢
          refine scan_loop_step_stop _ _ _ _ _ _ _ hta ?_
          rw [hpast, hafter2]
      | Down =>
        rw [if_neg (by simp)] at hta
        have hpast := get_with_word_past b1 s pi .Down cs cs.length hsz
          hoff1 (le_refl _)
        rw [hmval] at hta ⊢
        refine scan_loop_step_stop _ _ _ _ _ _ _ hta ?_
        rw [hpast, hafter2]
  | succ r ihr =>
    intro m fuel hm hfuel
    obtain ⟨f2, rfl⟩ : ∃ f2, fuel = f2 + 1 := ⟨fuel - 1, by omega⟩
    have hm1 : m + 1 < cs.length := by omega
    have hta := try_add_one_nat ⟨pi + d.offset s * m, s⟩ d
    dsimp only at hta
    have hn : pi + d.offset s * m + d.offset s =
        pi + d.offset s * (m + 1) := by ring
    rw [hn] at hta
    have hbound : pi + d.offset s * (m + 1) ≤
        pi + d.offset s * (cs.length - 1) := by
      have h2 : m + 1 ≤ cs.length - 1 := by omega
      have := Nat.mul_le_mul_left (d.offset s) h2
      omega
    rw [if_neg (by omega)] at hta
    have hcget : cs.get? (m + 1) = some (cs.get ⟨m + 1, hm1⟩) :=
      List.get?_eq_get hm1
    obtain ⟨l, hl⟩ := Option.isSome_iff_exists.mp
      (hchars (cs.get ⟨m + 1, hm1⟩) (List.get?_mem hcget))
    have hhit : get_with_word b1 (Word.mk ⟨pi, s⟩ d cs)
        ⟨pi + d.offset s * (m + 1), s⟩ = some (some l) := by
      rw [get_with_word_hit b1 s pi d cs _ (m + 1) hsz hoff1 hm1 hcget, hl]
      rfl
    cases d with
    | Right =>
      rw [if_pos rfl, if_neg hs0] at hta
      have hrows : (pi + Direction.offset .Right s * m) / s =
          (pi + Direction.offset .Right s * (m + 1)) / s := by
        have e1 := hrow_in rfl m (by omega)
        have e2 := hrow_in rfl (m + 1) hm1
        simp only [Direction.offset, Nat.one_mul]
        rw [e1, e2]
      rw [if_neg (by simp [hrows])] at hta
      rw [scan_loop_step_go _ _ _ _ _ _ _ _ hta hhit]
      exact ihr (m + 1) f2 (by omega) (by omega)
    | Down =>
      rw [if_neg (by simp)] at hta
      rw [scan_loop_step_go _ _ _ _ _ _ _ _ hta hhit]
      exact ihr (m + 1) f2 (by omega) (by omega)

theorem c8_read (b1 : Board) (s pi : Nat) (d : Direction) (cs : List Char)
    (hsz : b1.size = s) (hoff1 : 1 ≤ d.offset s)
    (hchars : ∀ c ∈ cs, ∃ l, Letter.from_char c = some l ∧
      Letter.to_char l = c) :
    ∀ (r m fuel : Nat), m + r + 1 = cs.length → r + 2 ≤ fuel →
    read_go b1 (Word.mk ⟨pi, s⟩ d cs) d (pi + d.offset s * (cs.length - 1))
      fuel ⟨pi + d.offset s * m, s⟩ = some (cs.drop m) := by
  intro r
  induction r with
  | zero =>
    intro m fuel hm hfuel
    obtain ⟨f2, rfl⟩ : ∃ f2, fuel = f2 + 1 := ⟨fuel - 1, by omega⟩
    obtain ⟨f3, rfl⟩ : ∃ f3, f2 = f3 + 1 := ⟨f2 - 1, by omega⟩
    have hmlt : m < cs.length := by omega
    have hcget : cs.get? m = some (cs.get ⟨m, hmlt⟩) := List.get?_eq_get hmlt
    obtain ⟨l, hl, hlc⟩ := hchars (cs.get ⟨m, hmlt⟩) (List.get?_mem hcget)
    have hhit : get_with_word b1 (Word.mk ⟨pi, s⟩ d cs)
        ⟨pi + d.offset s * m, s⟩ = some (some l) := by
      rw [get_with_word_hit b1 s pi d cs _ m hsz hoff1 hmlt hcget, hl]
      rfl
    have hle : (Position.mk (pi + d.offset s * m) s).index ≤
        pi + d.offset s * (cs.length - 1) := by
      show pi + d.offset s * m ≤ pi + d.offset s * (cs.length - 1)
      have h2 : m ≤ cs.length - 1 := by omega
      have := Nat.mul_le_mul_left (d.offset s) h2
      omega
    have hnx : (Position.mk (pi + d.offset s * m) s).add_direction d 1 =
        some ⟨pi + d.offset s * m + d.offset s, s⟩ := add_direction_one _ _
    rw [read_go_step_cons _ _ _ _ _ _ _ _ hle hhit hnx]
    have hstop : read_go b1 (Word.mk ⟨pi, s⟩ d cs) d
        (pi + d.offset s * (cs.length - 1)) (f3 + 1)
        ⟨pi + d.offset s * m + d.offset s, s⟩ = some [] := by
      refine read_go_step_stop _ _ _ _ _ _ ?_
      show ¬ pi + d.offset s * m + d.offset s ≤ pi + d.offset s * (cs.length - 1)
      have hmv : m = cs.length - 1 := by omega
      rw [hmv]
      omega
    rw [hstop]
    have hdrop : cs.drop m = [cs.get ⟨m, hmlt⟩] := by
      rw [List.drop_eq_getElem_cons hmlt]
      have h1 : m + 1 = cs.length := by omega
      rw [h1, List.drop_length]
      rfl
    rw [hdrop, hlc]
    rfl
  | succ r ihr =>
    intro m fuel hm hfuel
    obtain ⟨f2, rfl⟩ : ∃ f2, fuel = f2 + 1 := ⟨fuel - 1, by omega⟩
    have hmlt : m < cs.length := by omega
    have hcget : cs.get? m = some (cs.get ⟨m, hmlt⟩) := List.get?_eq_get hmlt
    obtain ⟨l, hl, hlc⟩ := hchars (cs.get ⟨m, hmlt⟩) (List.get?_mem hcget)
    have hhit : get_with_word b1 (Word.mk ⟨pi, s⟩ d cs)
        ⟨pi + d.offset s * m, s⟩ = some (some l) := by
      rw [get_with_word_hit b1 s pi d cs _ m hsz hoff1 hmlt hcget, hl]
      rfl
    have hle : (Position.mk (pi + d.offset s * m) s).index ≤
        pi + d.offset s * (cs.length - 1) := by
      show pi + d.offset s * m ≤ pi + d.offset s * (cs.length - 1)
      have h2 : m ≤ cs.length - 1 := by omega
      have := Nat.mul_le_mul_left (d.offset s) h2
      omega
    have hnx : (Position.mk (pi + d.offset s * m) s).add_direction d 1 =
        some ⟨pi + d.offset s * m + d.offset s, s⟩ := add_direction_one _ _
    rw [read_go_step_cons _ _ _ _ _ _ _ _ hle hhit hnx]
    have hn : pi + d.offset s * m + d.offset s =
        pi + d.offset s * (m + 1) := by ring
    rw [hn]
    rw [ihr (m + 1) f2 (by omega) (by omega)]
    have hdrop : cs.drop m = cs.get ⟨m, hmlt⟩ :: cs.drop (m + 1) := by
      rw [List.drop_eq_getElem_cons hmlt]
      rfl
    rw [hdrop, hlc]
    rfl

/-- C8 (amended): committing a word of at least two uppercase letters via
make_move onto a well-formed board — with every letter square of the word
on the grid (staying in one row for a rightward word), the start square
not on the grid's leading edge for its direction, and the squares just
before and just after the word empty or off the grid — and then re-running
the boundary-word scan at the word's own start position along its own
direction reproduces exactly the committed word text.  The original
unconditional claim fails for one-letter words (see the counterexample):
there the scan's two bounds coincide and it returns the empty string. -/
theorem c8_round_trip (b b1 : Board) (s pi : Nat) (d : Direction)
    (cs : List Char)
    (hsz : b.size = s) (hwf : b.inner.length = s * s)
    (hlen : 2 ≤ cs.length)
    (hchars : ∀ c ∈ cs, ∃ l, Letter.from_char c = some l ∧
      Letter.to_char l = c)
    (hoff1 : 1 ≤ d.offset s)
    (hoffle : d.offset s ≤ pi)
    (hrow_in : d = .Right → ∀ k, k < cs.length → (pi + k) / s = pi / s)
    (hbefore : b.get ⟨pi - d.offset s, s⟩ = none)
    (hafter : s * s < pi + d.offset s * cs.length ∨
      b.get ⟨pi + d.offset s * cs.length, s⟩ = none)
    (hmm : b.make_move ⟨pi, s⟩ cs d = some b1) :
    find_boundary_word b1 (Word.mk ⟨pi, s⟩ d cs) 0 d =
      some (Word.mk ⟨pi, s⟩ d cs) := by
  have hoffp : 1 ≤ d.offset (Position.mk pi s).board_size := hoff1
  have hfacts := make_move_board_facts hmm hoffp
  have hsz1 : b1.size = s := hfacts.1.trans hsz
  have hlen1 : b1.inner.length = s * s := hfacts.2.1.trans hwf
  have hpres : ∀ q : Nat, (∀ k, k < cs.length →
      q ≠ pi + d.offset s * k) → b1.inner.get? q = b.inner.get? q :=
    hfacts.2.2.1
  have hcells : ∀ k, k < cs.length → ∃ c l, cs.get? k = some c ∧
      Letter.from_char c = some l ∧
      b1.inner.get? (pi + d.offset s * k) = some (some l) :=
    hfacts.2.2.2
  obtain ⟨cL, lL, hcL, hlL, hcellL⟩ := hcells (cs.length - 1) (by omega)
  have hfit : pi + d.offset s * (cs.length - 1) < s * s := by
    have h := (List.get?_eq_some.mp hcellL).1
    omega
  have hpi : pi < s * s := by
    have h1 : 0 ≤ d.offset s * (cs.length - 1) := Nat.zero_le _
    omega
  have hb1before : b1.get ⟨pi - d.offset s, s⟩ = none := by
    have hq := hpres (pi - d.offset s) (fun k hk => by omega)
    rw [board_get_def, hq, ← board_get_def]
    exact hbefore
  have hafter1 : s * s < pi + d.offset s * cs.length ∨
      b1.get ⟨pi + d.offset s * cs.length, s⟩ = none := by
    cases hafter with
    | inl h => exact Or.inl h
    | inr h =>
      have hne : ∀ k, k < cs.length →
          pi + d.offset s * cs.length ≠ pi + d.offset s * k := by
        intro k hk
        have he : d.offset s * (k + 1) = d.offset s * k + d.offset s := by
          ring
        have hle := Nat.mul_le_mul_left (d.offset s)
          (show k + 1 ≤ cs.length from by omega)
        omega
      have hq := hpres _ hne
      refine Or.inr ?_
      rw [board_get_def, hq, ← board_get_def]
      exact h
  have hchars2 : ∀ c ∈ cs, (Letter.from_char c).isSome := by
    intro c hc
    obtain ⟨l, hl, _⟩ := hchars c hc
    rw [hl]
    rfl
  have h0 : (Position.mk pi s).add_direction d (((0 : Nat) : Int)) =
      some (Position.mk pi s) := by
    have h := add_direction_nat ⟨pi, s⟩ d 0
    rw [Nat.mul_zero, Nat.add_zero] at h
    exact h
  have h1 := c8_backward b1 s pi d cs hoffle hoff1 hpi hb1before
  have h2 := c8_forward b1 s pi d cs hsz1 hoff1 hchars2 hfit hrow_in hafter1
    (cs.length - 1) 0 (b1.size * b1.size + 2) (by omega)
    (by rw [hsz1]
        have := Nat.mul_le_mul_right (cs.length - 1) hoff1
        omega)
  simp only [Nat.mul_zero, Nat.add_zero] at h2
  have h3 : ¬ (Position.mk pi s) =
      (Position.mk (pi + d.offset s * (cs.length - 1)) s) := by
    intro he
    have h4 : pi = pi + d.offset s * (cs.length - 1) :=
      congrArg Position.index he
    have h5 := Nat.mul_le_mul_left (d.offset s)
      (show 1 ≤ cs.length - 1 from by omega)
    rw [Nat.mul_one] at h5
    omega
  have h4r := c8_read b1 s pi d cs hsz1 hoff1 hchars
    (cs.length - 1) 0 (b1.size * b1.size + 2) (by omega)
    (by rw [hsz1]
        have := Nat.mul_le_mul_right (cs.length - 1) hoff1
        omega)
  simp only [Nat.mul_zero, Nat.add_zero, List.drop_zero] at h4r
  exact find_boundary_word_eval h0 h1 h2 h3 h4r

/-- C8 counterexample: the claim as stated fails for one-letter words.
Committing the single letter A rightward at index 1 of a fresh 3-board
fits entirely on the board, yet re-scanning at the word's own start along
its own direction returns the empty word text, not A: with no neighbours,
the two scan bounds coincide and find_boundary_word short-circuits to the
empty string. -/
theorem c8_counterexample_single_letter :
    (Board.new 3).make_move ⟨1, 3⟩ ['A'] Direction.Right = some a3_board ∧
    find_boundary_word a3_board (Word.mk ⟨1, 3⟩ .Right ['A']) 0 .Right =
      some (Word.mk ⟨1, 3⟩ .Right []) ∧
    ¬ ([] : List Char) = ['A'] := by decide

/-- Witness for c8_round_trip: committing AB rightward from index 5 on a
fresh 4-board and re-scanning there reproduces AB. -/
theorem c8_round_trip_witness :
    find_boundary_word b4ab (Word.mk ⟨5, 4⟩ .Right ['A', 'B']) 0 .Right =
      some (Word.mk ⟨5, 4⟩ .Right ['A', 'B']) :=
  c8_round_trip (Board.new 4) b4ab 4 5 .Right ['A', 'B'] rfl (by decide)
    (by decide)
    (by intro c hc
        cases hc with
        | head => exact ⟨Letter.A, by decide⟩
        | tail _ hc2 =>
          cases hc2 with
          | head => exact ⟨Letter.B, by decide⟩
          | tail _ hc3 => cases hc3)
    (by decide) (by decide) (by decide) (by decide) (by decide) (by decide)

/-- C9 counterexample: not every call to Word::get_score terminates.  On
a zero-size board with a rightward one-letter word at a board_size-0
position, the primary scorer's perpendicular boundary scan has step
offset Direction.offset Down 0 = 0: each iteration lands on the same
square, that square answers through the word overlay, and the loop never
advances.  In the fuel-based embedding the scan returns none for every
fuel bound (the Rust loop runs forever), and get_score on that input
maps to none via find_boundary_word rather than returning a score. -/
theorem c9_counterexample_get_score_diverges_on_size_zero :
    (∀ fuel : Nat,
      scan_loop (Board.new 0) (Word.mk ⟨0, 0⟩ .Right ['A']) .Down (-1) fuel
        ⟨0, 0⟩ = none) ∧
    find_boundary_word (Board.new 0) (Word.mk ⟨0, 0⟩ .Right ['A']) 0 .Down =
      none ∧
    Word.get_score (Word.mk ⟨0, 0⟩ .Right ['A']) (Board.new 0) none =
      none := by
  refine ⟨?_, by decide, by decide⟩
  intro fuel
  induction fuel with
  | zero => rfl
  | succ f ih =>
    rw [scan_loop_step_go _ _ _ _ f _ ⟨0, 0⟩ Letter.A (by decide) (by decide)]
    exact ih

end Scrabby
